import Mathlib

/-!
Verification of the threshold ElGamal decryption core (decrypt.go,
state/vote.go, crypto/ecc/bjj_iden3/babyjubjub.go).

The abstract curve group used by decrypt.go (the G1 type, its Order, the
generator and the canonical string encoding) is not part of the sources in
src/; following the specification it is a cyclic group of prime order N
written additively. A cyclic group of order N generated by G is isomorphic
to the additive group ZMod N with G corresponding to 1, so group elements
are modelled as ZMod N throughout, scalar multiplication as multiplication
in ZMod N, and the canonical string encoding (injective on points by the
specification) as the point itself. The group order N is kept as an
explicit parameter since the specification only requires it to be a large
prime.
-/

set_option maxHeartbeats 1000000

/-! ## Modular inverse (model of big.Int.ModInverse) -/

/-- Extended Euclidean algorithm, structurally recursive on an explicit
fuel argument so that it evaluates inside the kernel. For inputs `a b` it
returns `(g, x, y)` with `g = gcd a b` and `a * x + b * y = g`, provided
`a ≤ fuel`. -/
def egcdAux : ℕ → ℕ → ℕ → ℕ × ℤ × ℤ
  | 0, _, b => (b, 0, 1)
  | fuel + 1, a, b =>
    if a = 0 then (b, 0, 1)
    else
      let r := egcdAux fuel (b % a) a
      (r.1, r.2.2 - ((b / a : ℕ) : ℤ) * r.2.1, r.2.1)

/-- Model of Go's big.Int.ModInverse(g, n): the inverse of g modulo n in
the range [0, n), or none when g and n are not relatively prime. -/
def modInverse (g n : ℕ) : Option ℕ :=
  if n = 0 then none
  else
    let r := egcdAux (g % n) (g % n) n
    if r.1 = 1 then some ((r.2.1 % (n : ℤ)).toNat) else none

theorem egcdAux_gcd (fuel a b : ℕ) (h : a ≤ fuel) :
    (egcdAux fuel a b).1 = Nat.gcd a b := by
  induction fuel generalizing a b with
  | zero =>
    interval_cases a
    simp [egcdAux]
  | succ fuel ih =>
    by_cases ha : a = 0
    · simp [egcdAux, ha]
    · have hrec : b % a ≤ fuel := by
        have := Nat.mod_lt b (Nat.pos_of_ne_zero ha)
        omega
      simp only [egcdAux, ha, if_false]
      rw [ih _ _ hrec]
      exact (Nat.gcd_rec a b).symm

theorem egcdAux_bezout (fuel a b : ℕ) (h : a ≤ fuel) :
    (a : ℤ) * (egcdAux fuel a b).2.1 + (b : ℤ) * (egcdAux fuel a b).2.2
      = ((egcdAux fuel a b).1 : ℤ) := by
  induction fuel generalizing a b with
  | zero =>
    interval_cases a
    simp [egcdAux]
  | succ fuel ih =>
    by_cases ha : a = 0
    · simp [egcdAux, ha]
    · have hrec : b % a ≤ fuel := by
        have := Nat.mod_lt b (Nat.pos_of_ne_zero ha)
        omega
      have hdm : a * (b / a) + b % a = b := Nat.div_add_mod b a
      have hIH := ih (b % a) a hrec
      simp only [egcdAux, ha, if_false]
      have hcast : ((b % a : ℕ) : ℤ) = (b : ℤ) - (a : ℤ) * ((b / a : ℕ) : ℤ) := by
        have := congrArg (fun t : ℕ => (t : ℤ)) hdm
        push_cast at this ⊢
        linarith
      rw [hcast] at hIH
      ring_nf
      ring_nf at hIH
      linarith

theorem modInverse_isSome (g n : ℕ) (hn : 0 < n) (h : Nat.gcd g n = 1) :
    (modInverse g n).isSome := by
  have hg : Nat.gcd (g % n) n = 1 := by
    rw [← Nat.gcd_rec, Nat.gcd_comm, h]
  have := egcdAux_gcd (g % n) (g % n) n le_rfl
  simp only [modInverse, hn.ne', if_false, this, hg, if_true, Option.isSome_some]

theorem modInverse_eq_none (g n : ℕ) (hn : 0 < n) (h : Nat.gcd g n ≠ 1) :
    modInverse g n = none := by
  have hg : Nat.gcd (g % n) n ≠ 1 := by
    rw [← Nat.gcd_rec, Nat.gcd_comm]
    exact h
  have := egcdAux_gcd (g % n) (g % n) n le_rfl
  simp only [modInverse, hn.ne', if_false, this, hg]

theorem modInverse_lt (g n x : ℕ) (hn : 0 < n) (h : modInverse g n = some x) :
    x < n := by
  simp only [modInverse, hn.ne', if_false] at h
  by_cases h1 : (egcdAux (g % n) (g % n) n).1 = 1
  · simp only [h1, if_true, Option.some_inj] at h
    subst h
    have hnz : (n : ℤ) ≠ 0 := by exact_mod_cast hn.ne'
    have := Int.emod_lt_of_pos (egcdAux (g % n) (g % n) n).2.1
      (b := (n : ℤ)) (by exact_mod_cast hn)
    omega
  · simp [h1] at h

theorem modInverse_mul (g n x : ℕ) (hn : 0 < n) (h : modInverse g n = some x) :
    (g : ZMod n) * (x : ZMod n) = 1 := by
  simp only [modInverse, hn.ne', if_false] at h
  by_cases h1 : (egcdAux (g % n) (g % n) n).1 = 1
  · simp only [h1, if_true, Option.some_inj] at h
    have hbez := egcdAux_bezout (g % n) (g % n) n le_rfl
    rw [h1] at hbez
    set X : ℤ := (egcdAux (g % n) (g % n) n).2.1 with hX
    set Y : ℤ := (egcdAux (g % n) (g % n) n).2.2 with hY
    have hnn : 0 ≤ X % (n : ℤ) := Int.emod_nonneg X (by exact_mod_cast hn.ne')
    have hxval : ((x : ℕ) : ZMod n) = ((X : ℤ) : ZMod n) := by
      have hcna : ((x : ℕ) : ZMod n) = (((x : ℕ) : ℤ) : ZMod n) := by push_cast; ring
      rw [hcna, ← h, Int.toNat_of_nonneg hnn, ZMod.intCast_mod]
    have hcast := congrArg (fun t : ℤ => (t : ZMod n)) hbez
    push_cast at hcast
    rw [ZMod.natCast_self] at hcast
    simp only [zero_mul, add_zero, mul_zero, zero_add] at hcast
    rw [hxval]
    exact hcast
  · simp [h1] at h

/-! ## Group model (spec-modelled G1) and decrypt.go -/

/-- Modelled from the spec: the G1 group type and its generator are not in
src/. Per the specification the group is cyclic of prime order N with
generator G; it is modelled as the additive group ZMod N with G = 1, so
scalarMultiplyBase(k) is the residue of k. -/
def scalarBaseMult (N : ℕ) (k : ℕ) : ZMod N := (k : ZMod N)

/-- ComputePartialDecryption from decrypt.go: s_i = privateShare * C1
(scalar multiplication of the ciphertext first component by the
participant's private share). -/
def ComputePartialDecryption (N : ℕ) (privateShare : ℕ) (c1 : ZMod N) : ZMod N :=
  (privateShare : ZMod N) * c1

/-- Constant discreteLogMaxMessage from decrypt.go: 7000000000 * 16. -/
def discreteLogMaxMessage : ℕ := 7000000000 * 16

/-- Constant numWorkersDiscreteLogBruteForce from decrypt.go. -/
def numWorkersDiscreteLogBruteForce : ℕ := 10

/-- Package-level flag useBabyStepGiantStep from decrypt.go; its value in
the source is true, so CombinePartialDecryptions runs the BSGS branch. -/
def useBabyStepGiantStep : Bool := true

/-- Numerator loop of computeLagrangeCoefficients: the running product
numerator *= (-j) mod N over all j in participants with j distinct from i,
reduced mod N at each step (big.Int Mod is Euclidean, giving a value in
[0, N)). -/
def lagrangeNum (N : ℕ) (participants : List ℤ) (i : ℤ) : ℕ :=
  participants.foldl
    (fun acc j => if i = j then acc else acc * ((-j).emod (N : ℤ)).toNat % N) 1

/-- Denominator loop of computeLagrangeCoefficients: the running product
denominator *= (i - j) mod N over all j in participants with j distinct
from i. The source adds N to a negative difference before reducing, which
coincides with the Euclidean remainder. -/
def lagrangeDen (N : ℕ) (participants : List ℤ) (i : ℤ) : ℕ :=
  participants.foldl
    (fun acc j => if i = j then acc else acc * ((i - j).emod (N : ℤ)).toNat % N) 1

/-- Body of the computeLagrangeCoefficients loop for one participant id:
coeff = numerator * ModInverse(denominator, N) mod N; none models the
log.Fatalf abort when the denominator has no inverse. -/
def lagrangeCoeffAt (N : ℕ) (participants : List ℤ) (i : ℤ) : Option ℕ :=
  (modInverse (lagrangeDen N participants i) N).map
    (fun inv => lagrangeNum N participants i * inv % N)

/-- computeLagrangeCoefficients from decrypt.go. The returned Go map from
participant id to coefficient is modelled as an association list in loop
order (duplicate ids recompute the identical coefficient, so first-key
lookup agrees with the Go map); none models the log.Fatalf process abort
(not an error return) taken when some denominator has no modular inverse. -/
def computeLagrangeCoefficients (N : ℕ) (participants : List ℤ) : Option (List (ℤ × ℕ)) :=
  participants.mapM (fun i => (lagrangeCoeffAt N participants i).map (fun c => (i, c)))

/-- Accumulation loop of CombinePartialDecryptions: s += lambda_id * pd[id]
over the participants in order. A missing map entry gives a nil point (or a
nil coefficient) whose dereference inside ScalarMult panics; none models
that runtime panic. -/
def sumLoop (N : ℕ) (pd : List (ℤ × ZMod N)) (coeffs : List (ℤ × ℕ)) :
    List ℤ → ZMod N → Option (ZMod N)
  | [], s => some s
  | id :: rest, s =>
    match pd.lookup id with
    | none => none
    | some p =>
      match coeffs.lookup id with
      | none => none
      | some lam => sumLoop N pd coeffs rest (s + (lam : ZMod N) * p)

/-- Giant-step factor mSqrt from babyStepGiantStep:
uint64(math.Sqrt(float64(maxMessage))) + 1. The float64 of 112000000000 is
exact and its correctly rounded square root 334664.0106... truncates to
334664, the integer square root of 112000000000; msqrt_characterization
below checks that property, so mSqrt = 334664 + 1. -/
def msqrt : ℕ := 334665

/-- Baby-step table lookup: the table maps the canonical string of j*G to j
for j in [0, mSqrt); on duplicate keys the last insertion wins (Go map
store). Canonical strings are injective on points per the spec, so keys
are modelled by the points themselves. -/
def babyLookup (N : ℕ) (p : ZMod N) : Option ℕ :=
  ((List.range msqrt).filter (fun (j : ℕ) => decide ((j : ZMod N) = p))).getLast?

/-- Giant-step loop of babyStepGiantStep: at index i the current point is
looked up in the baby-step table; on a hit with value j the function
returns i*mSqrt + j, otherwise the point advances by c = -(mSqrt * G). The
fuel counts the remaining iterations of the loop for i in [0, mSqrt]. -/
def gsLoop (N : ℕ) (c : ZMod N) : ℕ → ℕ → ZMod N → Option ℕ
  | _, 0, _ => none
  | i, fuel + 1, giantStep =>
    match babyLookup N giantStep with
    | some j => some (i * msqrt + j)
    | none => gsLoop N c (i + 1) fuel (giantStep + c)

/-- babyStepGiantStep from decrypt.go; none models the error return
"failed to compute discrete logarithm using Baby-Step Giant-Step
algorithm". -/
def babyStepGiantStep (N : ℕ) (m : ZMod N) : Option ℕ :=
  gsLoop N (-((msqrt : ℕ) : ZMod N)) 0 (msqrt + 1) m

/-- Width of each brute-force worker range: step = discreteLogMaxMessage /
numWorkersDiscreteLogBruteForce (integer division). -/
def bfStep : ℕ := discreteLogMaxMessage / numWorkersDiscreteLogBruteForce

/-- Scan range of brute-force worker w: start = w*step, end = start+step-1
except that the last worker's end is discreteLogMaxMessage; the worker
scans it in increasing order. -/
def workerRange (w : ℕ) : List ℕ :=
  let start := w * bfStep
  let last := if w = numWorkersDiscreteLogBruteForce - 1 then discreteLogMaxMessage
              else start + (bfStep - 1)
  List.range' start (last + 1 - start)

/-- One brute-force worker of CombinePartialDecryptions (strategy A): the
first scalar i in its range with i*G equal to the target point, or none
when the range is exhausted. -/
def bfWorkerFind (N : ℕ) (m : ZMod N) (w : ℕ) : Option ℕ :=
  (workerRange w).find? (fun i => decide ((i : ZMod N) = m))

/-- Outcome relation of the parallel brute-force coordinator: the returned
scalar is the report of whichever successful worker reaches the results
channel first, so r is a possible return value iff some worker finds it. -/
def bfFound (N : ℕ) (m : ZMod N) (r : ℕ) : Prop :=
  ∃ w < numWorkersDiscreteLogBruteForce, bfWorkerFind N m w = some r

/-- The brute-force coordinator returns the discrete-logarithm-unsolved
error exactly when every worker reports not found. -/
def bfUnsolved (N : ℕ) (m : ZMod N) : Prop :=
  ∀ w < numWorkersDiscreteLogBruteForce, bfWorkerFind N m w = none

/-- Result of a Go call: a returned value, a returned error value, a
log.Fatalf process abort, or a runtime panic. -/
inductive GoResult (α : Type) where
  | ok : α → GoResult α
  | err : String → GoResult α
  | fatal : GoResult α
  | panicked : GoResult α
deriving DecidableEq

/-- Masking-term computation of CombinePartialDecryptions: the point
M = C2 - sum of lambda_i * pd[i], none when coefficient computation aborts
or the accumulation panics. -/
def maskedPoint (N : ℕ) (c2 : ZMod N) (pd : List (ℤ × ZMod N)) (participants : List ℤ) :
    Option (ZMod N) :=
  (computeLagrangeCoefficients N participants).bind
    (fun coeffs => (sumLoop N pd coeffs participants 0).map (fun s => c2 + (-s)))

/-- CombinePartialDecryptions from decrypt.go. Since useBabyStepGiantStep
is true in the source, the discrete logarithm of M is taken with
babyStepGiantStep; the dead brute-force branch (lines 58-112) is modelled
by bfWorkerFind, bfFound and bfUnsolved. -/
def CombinePartialDecryptions (N : ℕ) (c2 : ZMod N) (pd : List (ℤ × ZMod N))
    (participants : List ℤ) : GoResult ℕ :=
  match computeLagrangeCoefficients N participants with
  | none => GoResult.fatal
  | some lagrangeCoeffs =>
    match sumLoop N pd lagrangeCoeffs participants 0 with
    | none => GoResult.panicked
    | some s =>
      match babyStepGiantStep N (c2 + (-s)) with
      | some messageScalar => GoResult.ok messageScalar
      | none => GoResult.err "failed to compute discrete logarithm using Baby-Step Giant-Step algorithm"

/-- Horner evaluation of a polynomial given by its coefficient list
(constant term first); used to state what correct Shamir shares of a
secret are. -/
def evalPoly (N : ℕ) (poly : List (ZMod N)) (x : ZMod N) : ZMod N :=
  poly.foldr (fun a acc => a + x * acc) 0

/-! ## state/vote.go -/

/-- Modelled from the spec: elgamal.Ciphertexts (not in src/) is an
additive-ElGamal ciphertext, a pair (C1, C2) of group elements added
componentwise. -/
structure Ciphertext (N : ℕ) where
  c1 : ZMod N
  c2 : ZMod N
deriving DecidableEq

/-- Componentwise homomorphic addition of ciphertexts (Ciphertexts.Add). -/
def ctAdd (N : ℕ) (a b : Ciphertext N) : Ciphertext N :=
  ⟨a.c1 + b.c1, a.c2 + b.c2⟩

/-- Modelled from the spec: elgamal.NewCiphertexts produces the zero
(identity) ciphertext that the batch accumulators start from. -/
def ctZero (N : ℕ) : Ciphertext N := ⟨0, 0⟩

/-- Vote from state/vote.go: nullifier and address are byte strings,
the ballot is a ciphertext, the commitment an arbitrary-precision
integer. -/
structure Vote (N : ℕ) where
  nullifier : List ℕ
  ballot : Ciphertext N
  address : List ℕ
  commitment : ℤ
deriving DecidableEq

/-- Modelled from the spec: the State struct (not in src/) driving one
open batch. The persisted nullifier store (o.tree) maps a nullifier to
the serialized prior ciphertext; a serialized value is modelled by its
decode outcome (none = bytes that fail Ciphertexts.Deserialize). dbTxOpen
models o.dbTx being non-nil. AddVote never writes the store; it is only
updated at batch boundaries by the persistence collaborator. -/
structure State (N : ℕ) where
  dbTxOpen : Bool
  votes : List (Vote N)
  ballotSum : Ciphertext N
  ballotCount : ℕ
  overwriteSum : Ciphertext N
  overwriteCount : ℕ
  tree : List (List ℕ × Option (Ciphertext N))
deriving DecidableEq

/-- Errors returned by AddVote, named after the spec taxonomy: the source
strings are "need to StartBatch() first" (BatchNotOpen), "too many votes
for this batch" (BatchFull), and the propagated Deserialize error
(CorruptStoredBallot). -/
inductive AddVoteError where
  | batchNotOpen : AddVoteError
  | batchFull : AddVoteError
  | corruptStoredBallot : AddVoteError
deriving DecidableEq

/-- AddVote from state/vote.go, translated statement by statement; the
returned state carries the receiver's mutations up to the point of
return. VoteBatchSize (not in src/) is the configured batch capacity. -/
def AddVote (N VoteBatchSize : ℕ) (o : State N) (v : Vote N) :
    Option AddVoteError × State N :=
  if o.dbTxOpen = false then (some AddVoteError.batchNotOpen, o)
  else if VoteBatchSize ≤ o.votes.length then (some AddVoteError.batchFull, o)
  else
    match o.tree.lookup v.nullifier with
    | some stored =>
      match stored with
      | none => (some AddVoteError.corruptStoredBallot, o)
      | some oldVote =>
        let o1 : State N :=
          { o with overwriteSum := ctAdd N o.overwriteSum oldVote,
                   overwriteCount := o.overwriteCount + 1 }
        (none,
         { o1 with ballotSum := ctAdd N o1.ballotSum v.ballot,
                   ballotCount := o1.ballotCount + 1,
                   votes := o1.votes ++ [v] })
    | none =>
      (none,
       { o with ballotSum := ctAdd N o.ballotSum v.ballot,
                ballotCount := o.ballotCount + 1,
                votes := o.votes ++ [v] })

/-- Sequential AddVote calls on one batch: returns the per-call results in
order together with the final state. -/
def addVotesList (N VoteBatchSize : ℕ) (o : State N) :
    List (Vote N) → List (Option AddVoteError) × State N
  | [] => ([], o)
  | v :: rest =>
    let r := AddVote N VoteBatchSize o v
    let rr := addVotesList N VoteBatchSize r.2 rest
    (r.1 :: rr.1, rr.2)

/-! ## crypto/ecc/bjj_iden3/babyjubjub.go -/

/-- Base field modulus of BabyJubJub (the BN254 scalar field prime), over
which the affine coordinates of BJJ points live. -/
def bjjQ : ℕ := 21888242871839275222246405745257275088548364400416034343698204186575808495617

/-- Affine BabyJubJub point as stored in the BJJ wrapper: the coordinate
pair (X, Y) over the base field. -/
structure BJJPoint where
  x : ZMod bjjQ
  y : ZMod bjjQ
deriving DecidableEq

/-- Twisted Edwards curve coefficient a = 168700 of BabyJubJub. -/
def bjjA : ZMod bjjQ := 168700

/-- Twisted Edwards curve coefficient d = 168696 of BabyJubJub. -/
def bjjD : ZMod bjjQ := 168696

/-- BJJ.Add from babyjubjub.go: projective twisted Edwards addition of the
two arguments followed by normalisation to affine coordinates, i.e. the
standard complete Edwards addition formulas. -/
def bjjAdd (p q : BJJPoint) : BJJPoint :=
  ⟨(p.x * q.y + p.y * q.x) * (1 + bjjD * p.x * q.x * p.y * q.y)⁻¹,
   (p.y * q.y - bjjA * p.x * q.x) * (1 - bjjD * p.x * q.x * p.y * q.y)⁻¹⟩

/-- BJJ.Neg from babyjubjub.go lines 89-95: the receiver's own point is
lifted to projective coordinates, the X coordinate is negated, and the
affine X of the result is written back into the receiver, whose Y is left
untouched. The argument a is never read. bjjNeg g a is the receiver g's
value after g.Neg(a). -/
def bjjNeg (g _a : BJJPoint) : BJJPoint :=
  ⟨-g.x, g.y⟩

/-- BJJ.SetZero / the default value of New(): the identity point (0, 1). -/
def bjjIdentity : BJJPoint := ⟨0, 1⟩

/-- The BabyJubJub generator B8 used by ScalarBaseMult and SetGenerator
(babyjubjub.B8), with its concrete affine coordinates. -/
def bjjB8 : BJJPoint :=
  ⟨5299619240641551281634865583518297030282874472190772894086521144482721001553,
   16950150798460657717958625567821834550301663161624707787222815936182638968203⟩

/-! ## Discrete logarithm lemmas -/

theorem bfStep_eq : bfStep = 11200000000 := by decide

theorem maxMessage_eq : discreteLogMaxMessage = 112000000000 := by decide

theorem numWorkers_eq : numWorkersDiscreteLogBruteForce = 10 := by decide

theorem workerRange_subset (w x : ℕ) (hw : w < numWorkersDiscreteLogBruteForce)
    (hx : x ∈ workerRange w) : x ≤ discreteLogMaxMessage := by
  rw [numWorkers_eq] at hw
  simp only [workerRange, numWorkers_eq, bfStep_eq, maxMessage_eq] at hx
  rw [maxMessage_eq]
  interval_cases w <;> simp_all [List.mem_range'_1] <;> omega

theorem exists_worker_mem (x : ℕ) (hx : x ≤ discreteLogMaxMessage) :
    ∃ w < numWorkersDiscreteLogBruteForce, x ∈ workerRange w := by
  rw [maxMessage_eq] at hx
  have hdm := Nat.div_add_mod x 11200000000
  have hml : x % 11200000000 < 11200000000 := Nat.mod_lt x (by norm_num)
  by_cases hsmall : x < 9 * 11200000000
  · have hdiv : x / 11200000000 < 9 := by
      rw [Nat.div_lt_iff_lt_mul (by norm_num : (0:ℕ) < 11200000000)]
      omega
    refine ⟨x / 11200000000, ?_, ?_⟩
    · rw [numWorkers_eq]
      omega
    · simp only [workerRange, numWorkers_eq, bfStep_eq, maxMessage_eq]
      have hne : ¬ (x / 11200000000 = 10 - 1) := by omega
      simp only [hne, if_false, List.mem_range'_1]
      omega
  · refine ⟨9, by rw [numWorkers_eq]; omega, ?_⟩
    simp only [workerRange, numWorkers_eq, bfStep_eq, maxMessage_eq]
    simp only [show (9 = 10 - 1) from rfl, if_true, List.mem_range'_1]
    omega

theorem natCast_inj_of_lt (N a b : ℕ) (ha : a < N) (hb : b < N)
    (h : ((a : ℕ) : ZMod N) = ((b : ℕ) : ZMod N)) : a = b := by
  have := (ZMod.natCast_eq_natCast_iff' a b N).mp h
  rwa [Nat.mod_eq_of_lt ha, Nat.mod_eq_of_lt hb] at this

theorem bf_returns (N x : ℕ) (hx : x ≤ discreteLogMaxMessage) :
    ∃ r, bfFound N (scalarBaseMult N x) r := by
  obtain ⟨w, hw, hmem⟩ := exists_worker_mem x hx
  have hsome : (bfWorkerFind N (scalarBaseMult N x) w).isSome := by
    apply List.find?_isSome.mpr
    exact ⟨x, hmem, by simp [scalarBaseMult]⟩
  obtain ⟨r, hr⟩ := Option.isSome_iff_exists.mp hsome
  exact ⟨r, w, hw, hr⟩

theorem bf_sound (N x r : ℕ) (hMN : discreteLogMaxMessage < N)
    (hx : x ≤ discreteLogMaxMessage) (h : bfFound N (scalarBaseMult N x) r) : r = x := by
  obtain ⟨w, hw, hfind⟩ := h
  have hp := List.find?_some hfind
  have hmem := List.mem_of_find?_eq_some hfind
  have hr : r ≤ discreteLogMaxMessage := workerRange_subset w r hw hmem
  simp only [decide_eq_true_eq] at hp
  exact natCast_inj_of_lt N r x (by omega) (by omega) hp

theorem bf_unsolved_iff (N : ℕ) (hMN : discreteLogMaxMessage < N) (m : ZMod N) :
    bfUnsolved N m ↔ ¬ ∃ x, x ≤ discreteLogMaxMessage ∧ scalarBaseMult N x = m := by
  constructor
  · rintro h ⟨x, hx, hxm⟩
    obtain ⟨w, hw, hmem⟩ := exists_worker_mem x hx
    have := h w hw
    rw [bfWorkerFind, List.find?_eq_none] at this
    exact this x hmem (by simp [scalarBaseMult] at hxm ⊢; exact hxm)
  · intro hne w hw
    rw [bfWorkerFind, List.find?_eq_none]
    intro i hi
    simp only [decide_eq_true_eq]
    intro hcast
    exact hne ⟨i, workerRange_subset w i hw hi, hcast⟩

theorem msqrt_characterization :
    (msqrt - 1) * (msqrt - 1) ≤ discreteLogMaxMessage
      ∧ discreteLogMaxMessage < msqrt * msqrt := by
  constructor <;> decide

theorem msqrt_sq_gt : discreteLogMaxMessage < msqrt * msqrt :=
  msqrt_characterization.2

theorem msqrt_bound : msqrt * msqrt + msqrt ≤ 5 * discreteLogMaxMessage := by
  decide

theorem msqrt_pos : 0 < msqrt := Nat.succ_pos _

theorem range_filter_eq_single (n a : ℕ) (h : a < n) :
    (List.range n).filter (fun j => decide (j = a)) = [a] := by
  induction n with
  | zero => omega
  | succ n ih =>
    rw [List.range_succ, List.filter_append]
    by_cases han : a = n
    · subst han
      have hnil : (List.range a).filter (fun j => decide (j = a)) = [] := by
        apply List.filter_eq_nil_iff.mpr
        intro j hj
        simp only [List.mem_range] at hj
        simp only [decide_eq_true_eq]
        omega
      simp [hnil]
    · have ha' : a < n := by omega
      rw [ih ha']
      have hna : ¬ (n = a) := fun hna => han hna.symm
      simp [hna]

theorem babyLookup_eq_some (N j0 : ℕ) (hj : j0 < msqrt) (hN : msqrt ≤ N) :
    babyLookup N ((j0 : ℕ) : ZMod N) = some j0 := by
  rw [babyLookup]
  have hfe : (List.range msqrt).filter (fun (j : ℕ) => decide ((j : ZMod N) = ((j0 : ℕ) : ZMod N)))
      = (List.range msqrt).filter (fun j => decide (j = j0)) := by
    apply List.filter_congr
    intro j hj'
    simp only [List.mem_range] at hj'
    simp only [decide_eq_true_eq, decide_eq_decide]
    constructor
    · intro hc
      exact natCast_inj_of_lt N j j0 (by omega) (by omega) hc
    · intro he
      rw [he]
  rw [hfe, range_filter_eq_single msqrt j0 hj]
  rfl

theorem babyLookup_eq_none (N : ℕ) (p : ZMod N)
    (h : ∀ j, j < msqrt → ((j : ℕ) : ZMod N) ≠ p) : babyLookup N p = none := by
  rw [babyLookup]
  have hnil : (List.range msqrt).filter (fun (j : ℕ) => decide ((j : ZMod N) = p)) = [] := by
    apply List.filter_eq_nil_iff.mpr
    intro j hj
    simp only [List.mem_range] at hj
    simp only [decide_eq_true_eq]
    exact h j hj
  rw [hnil]
  rfl

attribute [irreducible] babyLookup

theorem gsLoop_run (N x : ℕ) (hNbig : msqrt * msqrt + msqrt < N)
    (hx : x < msqrt * (msqrt + 1)) :
    ∀ fuel i, i ≤ x / msqrt → x / msqrt < i + fuel →
      gsLoop N (-((msqrt : ℕ) : ZMod N)) i fuel
        (((x : ℕ) : ZMod N) - (((i * msqrt : ℕ) : ℕ) : ZMod N)) = some x := by
  have hexp : msqrt * (msqrt + 1) = msqrt * msqrt + msqrt := by ring
  have hmsN : msqrt ≤ N := by omega
  have hxN : x < N := by omega
  intro fuel
  induction fuel with
  | zero =>
    intro i h1 h2
    omega
  | succ fuel ih =>
    intro i h1 h2
    have hile : i * msqrt ≤ x := by
      calc i * msqrt ≤ (x / msqrt) * msqrt := Nat.mul_le_mul_right msqrt h1
        _ ≤ x := Nat.div_mul_le_self x msqrt
    have hcur : ((x : ℕ) : ZMod N) - (((i * msqrt : ℕ) : ℕ) : ZMod N)
        = (((x - i * msqrt : ℕ) : ℕ) : ZMod N) := by
      rw [Nat.cast_sub hile]
    by_cases hi : i = x / msqrt
    · subst hi
      have hdm' : x / msqrt * msqrt + x % msqrt = x := Nat.div_add_mod' x msqrt
      have hj0 : x - (x / msqrt) * msqrt = x % msqrt := by omega
      have hjlt : x % msqrt < msqrt := Nat.mod_lt x msqrt_pos
      rw [gsLoop, hcur, hj0, babyLookup_eq_some N (x % msqrt) hjlt hmsN]
      show some (x / msqrt * msqrt + x % msqrt) = some x
      rw [hdm']
    · have hilt : i < x / msqrt := by omega
      have hge : msqrt ≤ x - i * msqrt := by
        have hsucc : (i + 1) * msqrt ≤ x := by
          calc (i + 1) * msqrt ≤ (x / msqrt) * msqrt := Nat.mul_le_mul_right msqrt (by omega)
            _ ≤ x := Nat.div_mul_le_self x msqrt
        have : (i + 1) * msqrt = i * msqrt + msqrt := by ring
        omega
      have hnone : babyLookup N (((x - i * msqrt : ℕ) : ℕ) : ZMod N) = none := by
        apply babyLookup_eq_none
        intro j hj hcast
        have hjeq : j = x - i * msqrt := by
          apply natCast_inj_of_lt N j (x - i * msqrt) (by omega) (by omega) hcast
        omega
      rw [gsLoop, hcur, hnone]
      have hstep : (((x - i * msqrt : ℕ) : ℕ) : ZMod N) + -((msqrt : ℕ) : ZMod N)
          = ((x : ℕ) : ZMod N) - ((((i + 1) * msqrt : ℕ) : ℕ) : ZMod N) := by
        rw [← hcur]
        have hmul : (((i + 1) * msqrt : ℕ) : ZMod N)
            = ((i * msqrt : ℕ) : ZMod N) + ((msqrt : ℕ) : ZMod N) := by
          push_cast
          ring
        rw [hmul]
        ring
      rw [hstep]
      exact ih (i + 1) (by omega) (by omega)

theorem bsgs_correct (N x : ℕ) (hNbig : msqrt * msqrt + msqrt < N)
    (hx : x < msqrt * (msqrt + 1)) :
    babyStepGiantStep N ((x : ℕ) : ZMod N) = some x := by
  have hdiv' : x / msqrt < msqrt + 1 := by
    rw [Nat.div_lt_iff_lt_mul msqrt_pos]
    have hcomm : msqrt * (msqrt + 1) = (msqrt + 1) * msqrt := by ring
    omega
  have hdiv : x / msqrt ≤ msqrt := by omega
  have := gsLoop_run N x hNbig hx (msqrt + 1) 0 (Nat.zero_le _) (by simpa using hdiv')
  rw [babyStepGiantStep]
  simpa using this

theorem gsLoop_exhaust (N : ℕ) (m : ZMod N) (hNbig : msqrt * msqrt + msqrt < N)
    (h : ∀ y, y < msqrt * (msqrt + 1) → ((y : ℕ) : ZMod N) ≠ m) :
    ∀ fuel i, i + fuel ≤ msqrt + 1 →
      gsLoop N (-((msqrt : ℕ) : ZMod N)) i fuel
        (m - (((i * msqrt : ℕ) : ℕ) : ZMod N)) = none := by
  intro fuel
  induction fuel with
  | zero => intro i _; rfl
  | succ fuel ih =>
    intro i hif
    have hnone : babyLookup N (m - (((i * msqrt : ℕ) : ℕ) : ZMod N)) = none := by
      apply babyLookup_eq_none
      intro j hj hcast
      have hy : ((i * msqrt + j : ℕ) : ZMod N) = m := by
        have : ((j : ℕ) : ZMod N) = m - ((i * msqrt : ℕ) : ZMod N) := hcast
        push_cast at this ⊢
        rw [this]
        ring
      have hylt : i * msqrt + j < msqrt * (msqrt + 1) := by
        have hi : i ≤ msqrt := by omega
        have hle : i * msqrt ≤ msqrt * msqrt := Nat.mul_le_mul_right msqrt hi
        have hexp : msqrt * (msqrt + 1) = msqrt * msqrt + msqrt := by ring
        omega
      exact h (i * msqrt + j) hylt hy
    rw [gsLoop, hnone]
    have hstep : m - (((i * msqrt : ℕ) : ℕ) : ZMod N) + -((msqrt : ℕ) : ZMod N)
        = m - ((((i + 1) * msqrt : ℕ) : ℕ) : ZMod N) := by
      have hmul : (((i + 1) * msqrt : ℕ) : ZMod N)
          = ((i * msqrt : ℕ) : ZMod N) + ((msqrt : ℕ) : ZMod N) := by
        push_cast
        ring
      rw [hmul]
      ring
    rw [hstep]
    exact ih (i + 1) (by omega)

theorem bsgs_none_iff (N : ℕ) (m : ZMod N) (hNbig : msqrt * msqrt + msqrt < N) :
    babyStepGiantStep N m = none
      ↔ ¬ ∃ y, y < msqrt * (msqrt + 1) ∧ ((y : ℕ) : ZMod N) = m := by
  constructor
  · rintro hnone ⟨y, hy, hcast⟩
    have := bsgs_correct N y hNbig hy
    rw [hcast] at this
    rw [this] at hnone
    exact Option.noConfusion hnone
  · intro hne
    have h : ∀ y, y < msqrt * (msqrt + 1) → ((y : ℕ) : ZMod N) ≠ m := by
      intro y hy hcast
      exact hne ⟨y, hy, hcast⟩
    have := gsLoop_exhaust N m hNbig h (msqrt + 1) 0 (by omega)
    rw [babyStepGiantStep]
    simpa using this

/-! ## Lagrange interpolation over the code's coefficients -/

/-- Coefficient list turned into a Mathlib polynomial (constant term
first), used to reason about Shamir shares. -/
noncomputable def toPoly (N : ℕ) : List (ZMod N) → Polynomial (ZMod N)
  | [] => 0
  | a :: t => Polynomial.C a + Polynomial.X * toPoly N t

theorem eval_toPoly (N : ℕ) (l : List (ZMod N)) (x : ZMod N) :
    (toPoly N l).eval x = evalPoly N l x := by
  induction l with
  | nil => simp [toPoly, evalPoly]
  | cons a t ih =>
    simp only [toPoly, Polynomial.eval_add, Polynomial.eval_C, Polynomial.eval_mul,
      Polynomial.eval_X, evalPoly, List.foldr_cons]
    rw [show (List.foldr (fun a acc => a + x * acc) 0 t) = evalPoly N t x from rfl, ← ih]

theorem degree_toPoly (N : ℕ) (l : List (ZMod N)) :
    (toPoly N l).degree < (l.length : ℕ) := by
  induction l with
  | nil =>
    simp only [toPoly, Polynomial.degree_zero, List.length_nil, Nat.cast_zero]
    exact WithBot.bot_lt_coe 0
  | cons a t ih =>
    simp only [toPoly, List.length_cons]
    apply lt_of_le_of_lt (Polynomial.degree_add_le _ _)
    apply max_lt
    · apply lt_of_le_of_lt Polynomial.degree_C_le
      exact_mod_cast WithBot.coe_lt_coe.mpr (Nat.succ_pos t.length)
    · apply lt_of_le_of_lt (Polynomial.degree_mul_le _ _)
      have h1 : (Polynomial.X : Polynomial (ZMod N)).degree + (toPoly N t).degree
          ≤ 1 + (toPoly N t).degree := add_le_add_right Polynomial.degree_X_le _
      apply lt_of_le_of_lt h1
      have h2 : (1 : WithBot ℕ) + (toPoly N t).degree < 1 + (t.length : ℕ) :=
        WithBot.add_lt_add_left (by simp) ih
      calc (1 : WithBot ℕ) + (toPoly N t).degree < 1 + (t.length : ℕ) := h2
        _ = ((t.length + 1 : ℕ) : WithBot ℕ) := by push_cast; ring

theorem foldl_modmul_cast (N : ℕ) (hN : 0 < N) (f : ℤ → ℤ) (i : ℤ) :
    ∀ (l : List ℤ) (acc : ℕ),
      ((l.foldl (fun a j => if i = j then a else a * ((f j).emod (N : ℤ)).toNat % N) acc : ℕ)
          : ZMod N)
        = (acc : ZMod N)
            * ((l.filter (fun j => decide (¬ i = j))).map (fun j => ((f j : ℤ) : ZMod N))).prod := by
  intro l
  induction l with
  | nil => intro acc; simp
  | cons j t ih =>
    intro acc
    by_cases hij : i = j
    · subst hij
      rw [List.foldl_cons, if_pos rfl, List.filter_cons, if_neg (by simp)]
      exact ih acc
    · rw [List.foldl_cons, if_neg hij, List.filter_cons, if_pos (by simp [hij])]
      rw [List.map_cons, List.prod_cons]
      rw [ih]
      have hfact : ((acc * ((f j).emod (N : ℤ)).toNat % N : ℕ) : ZMod N)
          = (acc : ZMod N) * ((f j : ℤ) : ZMod N) := by
        rw [ZMod.natCast_mod, Nat.cast_mul]
        congr 1
        have hnn : 0 ≤ (f j).emod (N : ℤ) := Int.emod_nonneg _ (by exact_mod_cast hN.ne')
        have h1 : ((((f j).emod (N : ℤ)).toNat : ℕ) : ZMod N)
            = ((((f j).emod (N : ℤ)) : ℤ) : ZMod N) := by
          rw [show ((((f j).emod (N : ℤ)).toNat : ℕ) : ZMod N)
              = (((((f j).emod (N : ℤ)).toNat : ℕ) : ℤ) : ZMod N) by push_cast; ring]
          rw [Int.toNat_of_nonneg hnn]
        rw [h1]
        show (((f j % (N : ℤ)) : ℤ) : ZMod N) = ((f j : ℤ) : ZMod N)
        exact ZMod.intCast_mod (f j) N
      rw [hfact]
      ring

theorem lagrangeNum_cast (N : ℕ) (hN : 0 < N) (participants : List ℤ) (i : ℤ) :
    ((lagrangeNum N participants i : ℕ) : ZMod N)
      = ((participants.filter (fun j => decide (¬ i = j))).map
          (fun j => -((j : ℤ) : ZMod N))).prod := by
  have := foldl_modmul_cast N hN (fun j => -j) i participants 1
  rw [lagrangeNum]
  rw [this]
  simp only [Nat.cast_one, one_mul]
  congr 1
  apply List.map_congr_left
  intro j _
  push_cast
  ring

theorem lagrangeDen_cast (N : ℕ) (hN : 0 < N) (participants : List ℤ) (i : ℤ) :
    ((lagrangeDen N participants i : ℕ) : ZMod N)
      = ((participants.filter (fun j => decide (¬ i = j))).map
          (fun j => ((i : ℤ) : ZMod N) - ((j : ℤ) : ZMod N))).prod := by
  have := foldl_modmul_cast N hN (fun j => i - j) i participants 1
  rw [lagrangeDen]
  rw [this]
  simp only [Nat.cast_one, one_mul]
  congr 1
  apply List.map_congr_left
  intro j _
  push_cast
  ring

theorem idCast_ne_of_bounds (N : ℕ) (i j : ℤ) (hi : 0 < i ∧ i < N) (hj : 0 < j ∧ j < N)
    (hij : i ≠ j) : ((i : ℤ) : ZMod N) ≠ ((j : ℤ) : ZMod N) := by
  intro hc
  have := (ZMod.intCast_eq_intCast_iff' i j N).mp hc
  rw [Int.emod_eq_of_lt (by omega) (by omega), Int.emod_eq_of_lt (by omega) (by omega)] at this
  exact hij this

theorem lagrangeDen_cast_ne_zero (N : ℕ) (hp : N.Prime) (participants : List ℤ) (i : ℤ)
    (hb : ∀ j ∈ participants, 0 < j ∧ j < N) (hi : 0 < i ∧ i < N) :
    ((lagrangeDen N participants i : ℕ) : ZMod N) ≠ 0 := by
  haveI : Fact N.Prime := ⟨hp⟩
  rw [lagrangeDen_cast N hp.pos participants i]
  apply List.prod_ne_zero
  intro hz
  rw [List.mem_map] at hz
  obtain ⟨j, hjmem, hjz⟩ := hz
  rw [List.mem_filter] at hjmem
  obtain ⟨hjmem, hjne⟩ := hjmem
  simp only [decide_eq_true_eq] at hjne
  have hij : i ≠ j := hjne
  have hne := idCast_ne_of_bounds N i j hi (hb j hjmem) hij
  rw [sub_eq_zero] at hjz
  exact hne hjz

theorem lagrangeDen_gcd (N : ℕ) (hp : N.Prime) (participants : List ℤ) (i : ℤ)
    (hb : ∀ j ∈ participants, 0 < j ∧ j < N) (hi : 0 < i ∧ i < N) :
    Nat.gcd (lagrangeDen N participants i) N = 1 := by
  haveI : NeZero N := ⟨hp.pos.ne'⟩
  have hne := lagrangeDen_cast_ne_zero N hp participants i hb hi
  have hnd : ¬ N ∣ lagrangeDen N participants i := by
    intro hdvd
    exact hne ((ZMod.natCast_zmod_eq_zero_iff_dvd _ _).mpr hdvd)
  exact Nat.Coprime.gcd_eq_one
    (Nat.Coprime.symm ((Nat.Prime.coprime_iff_not_dvd hp).mpr hnd))

theorem lagrangeCoeffAt_spec (N : ℕ) (hp : N.Prime) (participants : List ℤ) (i : ℤ)
    (hb : ∀ j ∈ participants, 0 < j ∧ j < N) (hi : 0 < i ∧ i < N) :
    ∃ c, lagrangeCoeffAt N participants i = some c ∧ c < N
      ∧ ((c : ℕ) : ZMod N)
          = ((participants.filter (fun j => decide (¬ i = j))).map
              (fun j => -((j : ℤ) : ZMod N))).prod
            * (((participants.filter (fun j => decide (¬ i = j))).map
              (fun j => ((i : ℤ) : ZMod N) - ((j : ℤ) : ZMod N))).prod)⁻¹ := by
  haveI : Fact N.Prime := ⟨hp⟩
  have hgcd := lagrangeDen_gcd N hp participants i hb hi
  have hsome := modInverse_isSome (lagrangeDen N participants i) N hp.pos hgcd
  obtain ⟨v, hv⟩ := Option.isSome_iff_exists.mp hsome
  refine ⟨lagrangeNum N participants i * v % N, ?_, ?_, ?_⟩
  · rw [lagrangeCoeffAt, hv]
    rfl
  · exact Nat.mod_lt _ hp.pos
  · have hmul := modInverse_mul (lagrangeDen N participants i) N v hp.pos hv
    have hvinv : ((v : ℕ) : ZMod N)
        = (((lagrangeDen N participants i : ℕ) : ZMod N))⁻¹ :=
      eq_inv_of_mul_eq_one_left (by rw [mul_comm]; exact hmul)
    rw [ZMod.natCast_mod, Nat.cast_mul, hvinv, lagrangeNum_cast N hp.pos,
      lagrangeDen_cast N hp.pos]

theorem mapM_pairs (f : ℤ → Option ℕ) :
    ∀ (l : List ℤ) (coeffs : List (ℤ × ℕ)),
      l.mapM (fun i => (f i).map (fun c => (i, c))) = some coeffs →
        coeffs = l.map (fun i => (i, (f i).getD 0)) ∧ ∀ i ∈ l, (f i).isSome := by
  intro l
  induction l with
  | nil =>
    intro coeffs h
    simp only [List.mapM_nil, pure, Option.some_inj] at h
    simp [← h]
  | cons i t ih =>
    intro coeffs h
    rw [List.mapM_cons] at h
    cases hfi : f i with
    | none => rw [hfi] at h; simp at h
    | some c =>
      rw [hfi] at h
      simp only [Option.map_some, Option.bind_eq_bind, Option.some_bind] at h
      cases hrest : t.mapM (fun i => (f i).map (fun c => (i, c))) with
      | none => rw [hrest] at h; simp at h
      | some ys =>
        rw [hrest] at h
        simp only [Option.bind_eq_bind, Option.some_bind, pure, Option.some_inj] at h
        obtain ⟨hys, hall⟩ := ih ys hrest
        have h' : (i, c) :: ys = coeffs := Option.some_inj.mp h
        constructor
        · rw [← h', hys, List.map_cons, hfi]
          rfl
        · intro j hj
          rcases List.mem_cons.mp hj with hji | hjt
          · subst hji; rw [hfi]; rfl
          · exact hall j hjt

theorem lookup_map_pairs (g : ℤ → ℕ) :
    ∀ (l : List ℤ) (i : ℤ), i ∈ l →
      (l.map (fun j => (j, g j))).lookup i = some (g i) := by
  intro l
  induction l with
  | nil => intro i hi; simp at hi
  | cons j t ih =>
    intro i hi
    rw [List.map_cons, List.lookup]
    by_cases hij : i = j
    · subst hij
      simp
    · have : (i == j) = false := by simp [hij]
      rw [this]
      rcases List.mem_cons.mp hi with hji | hit
      · exact absurd hji hij
      · exact ih i hit

theorem sumLoop_eval (N : ℕ) (pd : List (ℤ × ZMod N)) (coeffs : List (ℤ × ℕ))
    (P : ℤ → ZMod N) (lam : ℤ → ℕ) :
    ∀ (l : List ℤ) (s0 : ZMod N),
      (∀ i ∈ l, pd.lookup i = some (P i)) →
      (∀ i ∈ l, coeffs.lookup i = some (lam i)) →
      sumLoop N pd coeffs l s0
        = some (s0 + (l.map (fun i => ((lam i : ℕ) : ZMod N) * P i)).sum) := by
  intro l
  induction l with
  | nil => intro s0 _ _; simp [sumLoop]
  | cons i t ih =>
    intro s0 hpd hlam
    rw [sumLoop, hpd i (List.mem_cons_self i t), hlam i (List.mem_cons_self i t)]
    show sumLoop N pd coeffs t (s0 + ((lam i : ℕ) : ZMod N) * P i)
        = some (s0 + (List.map (fun i => ((lam i : ℕ) : ZMod N) * P i) (i :: t)).sum)
    rw [ih (s0 + ((lam i : ℕ) : ZMod N) * P i)
      (fun j hj => hpd j (List.mem_cons_of_mem i hj))
      (fun j hj => hlam j (List.mem_cons_of_mem i hj))]
    congr 1
    rw [List.map_cons, List.sum_cons]
    ring

theorem eval_basis_zero (N : ℕ) (hp : N.Prime) (s : Finset ℤ) (v : ℤ → ZMod N) (i : ℤ) :
    haveI : Fact N.Prime := ⟨hp⟩
    (Lagrange.basis s v i).eval 0 = ∏ j ∈ s.erase i, (-(v j) * (v i - v j)⁻¹) := by
  haveI : Fact N.Prime := ⟨hp⟩
  unfold Lagrange.basis
  rw [Polynomial.eval_prod]
  refine Finset.prod_congr rfl fun j _ => ?_
  unfold Lagrange.basisDivisor
  simp only [Polynomial.eval_mul, Polynomial.eval_C, Polynomial.eval_sub, Polynomial.eval_X]
  ring

theorem erase_toFinset_filter (parts : List ℤ) (i : ℤ) :
    parts.toFinset.erase i = (parts.filter (fun j => decide (¬ i = j))).toFinset := by
  classical
  rw [List.toFinset_filter]
  rw [← Finset.filter_ne' parts.toFinset i]
  apply Finset.filter_congr
  intro x _
  simp only [decide_eq_true_eq, decide_eq_decide]
  constructor
  · intro hx hne
    exact hx hne.symm
  · intro hx hne
    exact hx hne.symm

theorem interpolation_core (N : ℕ) (hp : N.Prime) (parts : List ℤ) (hnd : parts.Nodup)
    (hb : ∀ j ∈ parts, 0 < j ∧ j < N) (poly : List (ZMod N))
    (hlen : poly.length ≤ parts.length) :
    (parts.map (fun i =>
        ((parts.filter (fun j => decide (¬ i = j))).map
            (fun j => -((j : ℤ) : ZMod N))).prod
          * (((parts.filter (fun j => decide (¬ i = j))).map
            (fun j => ((i : ℤ) : ZMod N) - ((j : ℤ) : ZMod N))).prod)⁻¹
          * evalPoly N poly ((i : ℤ) : ZMod N))).sum
      = evalPoly N poly 0 := by
  haveI : Fact N.Prime := ⟨hp⟩
  classical
  set v : ℤ → ZMod N := fun i => ((i : ℤ) : ZMod N) with hvdef
  have hvs : Set.InjOn v (parts.toFinset : Set ℤ) := by
    intro a ha b hb' hab
    rw [Finset.mem_coe, List.mem_toFinset] at ha hb'
    by_contra hne
    exact idCast_ne_of_bounds N a b (hb a ha) (hb b hb') hne hab
  have hdeg : (toPoly N poly).degree < parts.toFinset.card := by
    have h1 := degree_toPoly N poly
    have h2 : parts.toFinset.card = parts.length := List.toFinset_card_of_nodup hnd
    rw [h2]
    exact lt_of_lt_of_le h1 (by exact_mod_cast hlen)
  have hinterp := Lagrange.eq_interpolate (v := v) (s := parts.toFinset) hvs hdeg
  have heval0 := congrArg (Polynomial.eval (0 : ZMod N)) hinterp
  rw [Lagrange.interpolate_apply, Polynomial.eval_finset_sum] at heval0
  simp only [Polynomial.eval_mul, Polynomial.eval_C] at heval0
  have hterm : ∀ i ∈ parts.toFinset,
      (toPoly N poly).eval (v i) * (Lagrange.basis parts.toFinset v i).eval 0
        = ((parts.filter (fun j => decide (¬ i = j))).map
            (fun j => -((j : ℤ) : ZMod N))).prod
          * (((parts.filter (fun j => decide (¬ i = j))).map
            (fun j => ((i : ℤ) : ZMod N) - ((j : ℤ) : ZMod N))).prod)⁻¹
          * evalPoly N poly ((i : ℤ) : ZMod N) := by
    intro i hi
    rw [List.mem_toFinset] at hi
    rw [eval_basis_zero N hp]
    rw [Finset.prod_mul_distrib, Finset.prod_inv_distrib]
    rw [erase_toFinset_filter parts i]
    have hndf : (parts.filter (fun j => decide (¬ i = j))).Nodup := hnd.filter _
    rw [List.prod_toFinset (fun j => -(v j)) hndf,
      List.prod_toFinset (fun j => v i - v j) hndf]
    rw [eval_toPoly]
    ring
  rw [Finset.sum_congr rfl hterm] at heval0
  have hsum := List.sum_toFinset (fun i =>
      ((parts.filter (fun j => decide (¬ i = j))).map
          (fun j => -((j : ℤ) : ZMod N))).prod
        * (((parts.filter (fun j => decide (¬ i = j))).map
          (fun j => ((i : ℤ) : ZMod N) - ((j : ℤ) : ZMod N))).prod)⁻¹
        * evalPoly N poly ((i : ℤ) : ZMod N)) hnd
  rw [hsum] at heval0
  rw [← heval0, eval_toPoly]

theorem mapM_pairs_some (f : ℤ → Option ℕ) :
    ∀ (l : List ℤ), (∀ i ∈ l, (f i).isSome) →
      l.mapM (fun i => (f i).map (fun c => (i, c)))
        = some (l.map (fun i => (i, (f i).getD 0))) := by
  intro l
  induction l with
  | nil => intro _; rfl
  | cons i t ih =>
    intro h
    rw [List.mapM_cons]
    obtain ⟨c, hc⟩ := Option.isSome_iff_exists.mp (h i (List.mem_cons_self i t))
    rw [hc, ih (fun j hj => h j (List.mem_cons_of_mem i hj))]
    simp only [Option.map_some', Option.bind_eq_bind, Option.some_bind, List.map_cons, hc,
      Option.getD_some, pure]

theorem computeLagrange_some (N : ℕ) (hp : N.Prime) (parts : List ℤ)
    (hb : ∀ j ∈ parts, 0 < j ∧ j < N) :
    computeLagrangeCoefficients N parts
      = some (parts.map (fun i => (i, (lagrangeCoeffAt N parts i).getD 0))) := by
  rw [computeLagrangeCoefficients]
  apply mapM_pairs_some
  intro i hi
  obtain ⟨c, hc, _, _⟩ := lagrangeCoeffAt_spec N hp parts i hb (hb i hi)
  rw [hc]
  rfl

theorem list_sum_mul_right (N : ℕ) (l : List ℤ) (g : ℤ → ZMod N) (c : ZMod N) :
    (l.map (fun i => g i * c)).sum = (l.map g).sum * c := by
  induction l with
  | nil => simp
  | cons i t ih => simp [ih, add_mul]

theorem sumLoop_honest (N : ℕ) (hp : N.Prime) (c1 : ZMod N) (poly : List (ZMod N))
    (pd : List (ℤ × ZMod N)) (S : List ℤ) (hnd : S.Nodup)
    (hb : ∀ j ∈ S, 0 < j ∧ j < N) (hlen : poly.length ≤ S.length)
    (hpd : ∀ i ∈ S, pd.lookup i = some (evalPoly N poly ((i : ℤ) : ZMod N) * c1)) :
    sumLoop N pd (S.map (fun i => (i, (lagrangeCoeffAt N S i).getD 0))) S 0
      = some (evalPoly N poly 0 * c1) := by
  haveI : Fact N.Prime := ⟨hp⟩
  have hlook := lookup_map_pairs (fun i => (lagrangeCoeffAt N S i).getD 0) S
  rw [sumLoop_eval N pd _ (fun i => evalPoly N poly ((i : ℤ) : ZMod N) * c1)
    (fun i => (lagrangeCoeffAt N S i).getD 0) S 0 hpd (fun i hi => hlook i hi)]
  congr 1
  rw [zero_add]
  have hterm : ∀ i ∈ S,
      (((lagrangeCoeffAt N S i).getD 0 : ℕ) : ZMod N)
          * (evalPoly N poly ((i : ℤ) : ZMod N) * c1)
        = (((S.filter (fun j => decide (¬ i = j))).map
              (fun j => -((j : ℤ) : ZMod N))).prod
            * (((S.filter (fun j => decide (¬ i = j))).map
              (fun j => ((i : ℤ) : ZMod N) - ((j : ℤ) : ZMod N))).prod)⁻¹
            * evalPoly N poly ((i : ℤ) : ZMod N)) * c1 := by
    intro i hi
    obtain ⟨c, hc, _, hcast⟩ := lagrangeCoeffAt_spec N hp S i hb (hb i hi)
    rw [hc, Option.getD_some, hcast]
    ring
  rw [List.map_congr_left hterm, list_sum_mul_right,
    interpolation_core N hp S hnd hb poly hlen]

theorem combine_unfold (N : ℕ) (c2 : ZMod N) (pd : List (ℤ × ZMod N)) (S : List ℤ)
    (coeffs : List (ℤ × ℕ)) (s : ZMod N)
    (h1 : computeLagrangeCoefficients N S = some coeffs)
    (h2 : sumLoop N pd coeffs S 0 = some s) :
    CombinePartialDecryptions N c2 pd S
      = (match babyStepGiantStep N (c2 + -s) with
        | some messageScalar => GoResult.ok messageScalar
        | none => GoResult.err "failed to compute discrete logarithm using Baby-Step Giant-Step algorithm") := by
  rw [CombinePartialDecryptions, h1]
  show (match sumLoop N pd coeffs S 0 with
    | none => GoResult.panicked
    | some s =>
      match babyStepGiantStep N (c2 + -s) with
      | some messageScalar => GoResult.ok messageScalar
      | none => GoResult.err "failed to compute discrete logarithm using Baby-Step Giant-Step algorithm") = _
  rw [h2]

theorem maskedPoint_unfold (N : ℕ) (c2 : ZMod N) (pd : List (ℤ × ZMod N)) (S : List ℤ)
    (coeffs : List (ℤ × ℕ)) (s : ZMod N)
    (h1 : computeLagrangeCoefficients N S = some coeffs)
    (h2 : sumLoop N pd coeffs S 0 = some s) :
    maskedPoint N c2 pd S = some (c2 + -s) := by
  rw [maskedPoint, h1]
  show (sumLoop N pd coeffs S 0).map (fun s => c2 + -s) = _
  rw [h2]
  rfl

/-! ## AddVote lemmas -/

theorem AddVote_notOpen (N VBS : ℕ) (o : State N) (v : Vote N)
    (h : o.dbTxOpen = false) :
    AddVote N VBS o v = (some AddVoteError.batchNotOpen, o) := by
  rw [AddVote, if_pos h]

theorem AddVote_full (N VBS : ℕ) (o : State N) (v : Vote N)
    (hopen : o.dbTxOpen = true) (h : VBS ≤ o.votes.length) :
    AddVote N VBS o v = (some AddVoteError.batchFull, o) := by
  rw [AddVote, if_neg (by simp [hopen]), if_pos h]

theorem AddVote_fresh (N VBS : ℕ) (o : State N) (v : Vote N)
    (hopen : o.dbTxOpen = true) (hlen : o.votes.length < VBS)
    (hfresh : o.tree.lookup v.nullifier = none) :
    AddVote N VBS o v
      = (none,
         { o with ballotSum := ctAdd N o.ballotSum v.ballot,
                  ballotCount := o.ballotCount + 1,
                  votes := o.votes ++ [v] }) := by
  rw [AddVote, if_neg (by simp [hopen]), if_neg (by omega), hfresh]

theorem AddVote_overwrite (N VBS : ℕ) (o : State N) (v : Vote N) (old : Ciphertext N)
    (hopen : o.dbTxOpen = true) (hlen : o.votes.length < VBS)
    (hprior : o.tree.lookup v.nullifier = some (some old)) :
    AddVote N VBS o v
      = (none,
         { o with overwriteSum := ctAdd N o.overwriteSum old,
                  overwriteCount := o.overwriteCount + 1,
                  ballotSum := ctAdd N o.ballotSum v.ballot,
                  ballotCount := o.ballotCount + 1,
                  votes := o.votes ++ [v] }) := by
  rw [AddVote, if_neg (by simp [hopen]), if_neg (by omega), hprior]

theorem AddVote_corrupt (N VBS : ℕ) (o : State N) (v : Vote N)
    (hopen : o.dbTxOpen = true) (hlen : o.votes.length < VBS)
    (hcorrupt : o.tree.lookup v.nullifier = some none) :
    AddVote N VBS o v = (some AddVoteError.corruptStoredBallot, o) := by
  rw [AddVote, if_neg (by simp [hopen]), if_neg (by omega), hcorrupt]

theorem addVotesList_ok (N VBS : ℕ) :
    ∀ (vs : List (Vote N)) (o : State N), o.dbTxOpen = true →
      (∀ v ∈ vs, o.tree.lookup v.nullifier = none) →
      o.votes.length + vs.length ≤ VBS →
      (addVotesList N VBS o vs).1 = List.replicate vs.length none
        ∧ (addVotesList N VBS o vs).2.votes.length = o.votes.length + vs.length
        ∧ (addVotesList N VBS o vs).2.dbTxOpen = true
        ∧ (addVotesList N VBS o vs).2.tree = o.tree := by
  intro vs
  induction vs with
  | nil =>
    intro o ho _ _
    exact ⟨rfl, by simp [addVotesList], ho, rfl⟩
  | cons v t ih =>
    intro o ho hfresh hcap
    have hstep := AddVote_fresh N VBS o v ho (by simp at hcap; omega)
      (hfresh v (List.mem_cons_self v t))
    have ho' : (AddVote N VBS o v).2.dbTxOpen = true := by rw [hstep]; exact ho
    have htree' : (AddVote N VBS o v).2.tree = o.tree := by rw [hstep]
    have hlen' : (AddVote N VBS o v).2.votes.length = o.votes.length + 1 := by
      rw [hstep]; simp
    have hrec := ih (AddVote N VBS o v).2 ho'
      (fun w hw => by rw [htree']; exact hfresh w (List.mem_cons_of_mem v hw))
      (by rw [hlen']; simp at hcap ⊢; omega)
    refine ⟨?_, ?_, hrec.2.2.1, ?_⟩
    case refine_3 =>
      show (addVotesList N VBS (AddVote N VBS o v).2 t).2.tree = o.tree
      rw [hrec.2.2.2, htree']
    · show ((AddVote N VBS o v).1 :: (addVotesList N VBS (AddVote N VBS o v).2 t).1)
        = List.replicate (t.length + 1) none
      rw [hrec.1, hstep]
      rfl
    · show (addVotesList N VBS (AddVote N VBS o v).2 t).2.votes.length
        = o.votes.length + (t.length + 1)
      rw [hrec.2.1, hlen']
      omega

theorem addVotesList_append (N VBS : ℕ) :
    ∀ (l1 l2 : List (Vote N)) (o : State N),
      addVotesList N VBS o (l1 ++ l2)
        = ((addVotesList N VBS o l1).1
            ++ (addVotesList N VBS (addVotesList N VBS o l1).2 l2).1,
           (addVotesList N VBS (addVotesList N VBS o l1).2 l2).2) := by
  intro l1
  induction l1 with
  | nil => intro l2 o; rfl
  | cons v t ih =>
    intro l2 o
    show addVotesList N VBS o (v :: (t ++ l2)) = _
    rw [addVotesList]
    rw [ih l2 (AddVote N VBS o v).2]
    rfl

/-! ## Claims on state/vote.go -/

/-- Claim C4 counterexample: with an open batch over an empty persisted
store, adding two votes that share nullifier [0] leaves overwriteCount = 0
and overwriteSum untouched (the zero ciphertext, not E1): AddVote consults
only the persisted store, which within-batch additions never update, so
the second vote is not recognised as an overwrite, refuting the claimed
accounting overwriteSum = E1, overwriteCount = 1. -/
theorem claim4_counterexample :
    (addVotesList 5 8 (State.mk true [] (ctZero 5) 0 (ctZero 5) 0 [])
        [Vote.mk [0] (Ciphertext.mk 1 2) [] 0, Vote.mk [0] (Ciphertext.mk 3 4) [] 0]).2.overwriteCount = 0
      ∧ (addVotesList 5 8 (State.mk true [] (ctZero 5) 0 (ctZero 5) 0 [])
        [Vote.mk [0] (Ciphertext.mk 1 2) [] 0, Vote.mk [0] (Ciphertext.mk 3 4) [] 0]).2.ballotCount = 2
      ∧ ¬ ((addVotesList 5 8 (State.mk true [] (ctZero 5) 0 (ctZero 5) 0 [])
            [Vote.mk [0] (Ciphertext.mk 1 2) [] 0, Vote.mk [0] (Ciphertext.mk 3 4) [] 0]).2.overwriteCount = 1
          ∧ (addVotesList 5 8 (State.mk true [] (ctZero 5) 0 (ctZero 5) 0 [])
            [Vote.mk [0] (Ciphertext.mk 1 2) [] 0, Vote.mk [0] (Ciphertext.mk 3 4) [] 0]).2.overwriteSum = Ciphertext.mk 1 2) := by
  refine ⟨by decide, by decide, ?_⟩
  intro h
  exact absurd h.1 (by decide)

/-- Claim C4 (amended): adding two votes with the same nullifier A to one
open batch, where A is not in the persisted store, accumulates both
ballots into ballotSum and increments ballotCount twice and appends both
votes, but the second vote is not recognised as an overwrite:
overwriteSum and overwriteCount are unchanged, because AddVote checks only
the persisted store, which within-batch additions never update. -/
theorem claim4_within_batch_overwrite (N VBS : ℕ) (o : State N) (A : List ℕ)
    (E1 E2 : Ciphertext N) (a1 a2 : List ℕ) (m1 m2 : ℤ)
    (hopen : o.dbTxOpen = true) (hcap : o.votes.length + 2 ≤ VBS)
    (hfresh : o.tree.lookup A = none) :
    (addVotesList N VBS o [Vote.mk A E1 a1 m1, Vote.mk A E2 a2 m2]).1 = [none, none]
      ∧ (addVotesList N VBS o [Vote.mk A E1 a1 m1, Vote.mk A E2 a2 m2]).2.ballotSum
          = ctAdd N (ctAdd N o.ballotSum E1) E2
      ∧ (addVotesList N VBS o [Vote.mk A E1 a1 m1, Vote.mk A E2 a2 m2]).2.ballotCount
          = o.ballotCount + 2
      ∧ (addVotesList N VBS o [Vote.mk A E1 a1 m1, Vote.mk A E2 a2 m2]).2.overwriteSum
          = o.overwriteSum
      ∧ (addVotesList N VBS o [Vote.mk A E1 a1 m1, Vote.mk A E2 a2 m2]).2.overwriteCount
          = o.overwriteCount
      ∧ (addVotesList N VBS o [Vote.mk A E1 a1 m1, Vote.mk A E2 a2 m2]).2.votes
          = o.votes ++ [Vote.mk A E1 a1 m1, Vote.mk A E2 a2 m2] := by
  have h1 := AddVote_fresh N VBS o (Vote.mk A E1 a1 m1) hopen (by omega) hfresh
  set o1 : State N :=
    { o with ballotSum := ctAdd N o.ballotSum E1,
             ballotCount := o.ballotCount + 1,
             votes := o.votes ++ [Vote.mk A E1 a1 m1] } with ho1
  have h2 := AddVote_fresh N VBS o1 (Vote.mk A E2 a2 m2) hopen (by simp [ho1]; omega) hfresh
  simp only [addVotesList, h1, h2]
  simp [ho1, ctAdd, List.append_assoc]

/-- Witness for claim C4 (amended) at a concrete batch: order 5 group,
batch size 8, empty store, two votes sharing nullifier [0]. -/
theorem claim4_witness :
    (State.mk true [] (ctZero 5) 0 (ctZero 5) 0 [] : State 5).dbTxOpen = true
      ∧ (State.mk true [] (ctZero 5) 0 (ctZero 5) 0 [] : State 5).votes.length + 2 ≤ 8
      ∧ (State.mk true [] (ctZero 5) 0 (ctZero 5) 0 [] : State 5).tree.lookup [0] = none
      ∧ ((addVotesList 5 8 (State.mk true [] (ctZero 5) 0 (ctZero 5) 0 [])
            [Vote.mk [0] (Ciphertext.mk 1 2) [] 0, Vote.mk [0] (Ciphertext.mk 3 4) [] 0]).1
          = [none, none]
        ∧ (addVotesList 5 8 (State.mk true [] (ctZero 5) 0 (ctZero 5) 0 [])
            [Vote.mk [0] (Ciphertext.mk 1 2) [] 0, Vote.mk [0] (Ciphertext.mk 3 4) [] 0]).2.ballotSum
          = ctAdd 5 (ctAdd 5 (State.mk true [] (ctZero 5) 0 (ctZero 5) 0 [] : State 5).ballotSum (Ciphertext.mk 1 2)) (Ciphertext.mk 3 4)
        ∧ (addVotesList 5 8 (State.mk true [] (ctZero 5) 0 (ctZero 5) 0 [])
            [Vote.mk [0] (Ciphertext.mk 1 2) [] 0, Vote.mk [0] (Ciphertext.mk 3 4) [] 0]).2.ballotCount
          = (State.mk true [] (ctZero 5) 0 (ctZero 5) 0 [] : State 5).ballotCount + 2
        ∧ (addVotesList 5 8 (State.mk true [] (ctZero 5) 0 (ctZero 5) 0 [])
            [Vote.mk [0] (Ciphertext.mk 1 2) [] 0, Vote.mk [0] (Ciphertext.mk 3 4) [] 0]).2.overwriteSum
          = (State.mk true [] (ctZero 5) 0 (ctZero 5) 0 [] : State 5).overwriteSum
        ∧ (addVotesList 5 8 (State.mk true [] (ctZero 5) 0 (ctZero 5) 0 [])
            [Vote.mk [0] (Ciphertext.mk 1 2) [] 0, Vote.mk [0] (Ciphertext.mk 3 4) [] 0]).2.overwriteCount
          = (State.mk true [] (ctZero 5) 0 (ctZero 5) 0 [] : State 5).overwriteCount
        ∧ (addVotesList 5 8 (State.mk true [] (ctZero 5) 0 (ctZero 5) 0 [])
            [Vote.mk [0] (Ciphertext.mk 1 2) [] 0, Vote.mk [0] (Ciphertext.mk 3 4) [] 0]).2.votes
          = (State.mk true [] (ctZero 5) 0 (ctZero 5) 0 [] : State 5).votes
              ++ [Vote.mk [0] (Ciphertext.mk 1 2) [] 0, Vote.mk [0] (Ciphertext.mk 3 4) [] 0]) :=
  ⟨by decide, by decide, by decide,
   claim4_within_batch_overwrite 5 8 (State.mk true [] (ctZero 5) 0 (ctZero 5) 0 [])
     [0] (Ciphertext.mk 1 2) (Ciphertext.mk 3 4) [] [] 0 0
     (by decide) (by decide) (by decide)⟩

/-- Claim C7: when the persisted store holds bytes for the vote's
nullifier that fail to deserialize, AddVote returns the CorruptStoredBallot
error, the batch state is unchanged by the call, and a subsequent vote with
an unseen nullifier is still accepted into the same batch. -/
theorem claim7_corrupt_stored_ballot (N VBS : ℕ) (o : State N) (v w : Vote N)
    (hopen : o.dbTxOpen = true) (hlen : o.votes.length < VBS)
    (hcorrupt : o.tree.lookup v.nullifier = some none)
    (hwfresh : o.tree.lookup w.nullifier = none) :
    (AddVote N VBS o v).1 = some AddVoteError.corruptStoredBallot
      ∧ (AddVote N VBS o v).2 = o
      ∧ (AddVote N VBS (AddVote N VBS o v).2 w).1 = none := by
  have h1 := AddVote_corrupt N VBS o v hopen hlen hcorrupt
  have h2 := AddVote_fresh N VBS o w hopen hlen hwfresh
  rw [h1]
  exact ⟨rfl, rfl, by rw [h2]⟩

/-- Witness for claim C7: a store whose entry for nullifier [1] is corrupt
bytes; the vote on [1] is rejected without mutating the batch and a vote
on [2] still succeeds. -/
theorem claim7_witness :
    (State.mk true [] (ctZero 5) 0 (ctZero 5) 0 [([1], none)] : State 5).dbTxOpen = true
      ∧ (State.mk true [] (ctZero 5) 0 (ctZero 5) 0 [([1], none)] : State 5).votes.length < 4
      ∧ (State.mk true [] (ctZero 5) 0 (ctZero 5) 0 [([1], none)] : State 5).tree.lookup [1] = some none
      ∧ (State.mk true [] (ctZero 5) 0 (ctZero 5) 0 [([1], none)] : State 5).tree.lookup [2] = none
      ∧ ((AddVote 5 4 (State.mk true [] (ctZero 5) 0 (ctZero 5) 0 [([1], none)])
            (Vote.mk [1] (Ciphertext.mk 1 2) [] 0)).1 = some AddVoteError.corruptStoredBallot
        ∧ (AddVote 5 4 (State.mk true [] (ctZero 5) 0 (ctZero 5) 0 [([1], none)])
            (Vote.mk [1] (Ciphertext.mk 1 2) [] 0)).2
          = State.mk true [] (ctZero 5) 0 (ctZero 5) 0 [([1], none)]
        ∧ (AddVote 5 4 (AddVote 5 4 (State.mk true [] (ctZero 5) 0 (ctZero 5) 0 [([1], none)])
            (Vote.mk [1] (Ciphertext.mk 1 2) [] 0)).2 (Vote.mk [2] (Ciphertext.mk 3 4) [] 0)).1 = none) :=
  ⟨by decide, by decide, by decide, by decide,
   claim7_corrupt_stored_ballot 5 4 (State.mk true [] (ctZero 5) 0 (ctZero 5) 0 [([1], none)])
     (Vote.mk [1] (Ciphertext.mk 1 2) [] 0) (Vote.mk [2] (Ciphertext.mk 3 4) [] 0)
     (by decide) (by decide) (by decide) (by decide)⟩

/-- Claim C9: on an open batch AddVote succeeds while the vote count is
below VoteBatchSize and fails with BatchFull once it has reached it; in a
sequence of VoteBatchSize + 1 adds of fresh votes starting from an empty
batch, the first VoteBatchSize calls succeed and the last fails with
BatchFull. -/
theorem claim9_batch_capacity (N VBS : ℕ) (o : State N) (v vlast : Vote N)
    (vs : List (Vote N)) (hopen : o.dbTxOpen = true)
    (hvok : o.tree.lookup v.nullifier = none)
    (hempty : o.votes = []) (hlenvs : vs.length = VBS)
    (hfresh : ∀ u ∈ vs, o.tree.lookup u.nullifier = none) :
    (o.votes.length < VBS → (AddVote N VBS o v).1 = none)
      ∧ (VBS ≤ o.votes.length → (AddVote N VBS o v).1 = some AddVoteError.batchFull)
      ∧ (addVotesList N VBS o (vs ++ [vlast])).1
          = List.replicate VBS none ++ [some AddVoteError.batchFull] := by
  refine ⟨?_, ?_, ?_⟩
  · intro hlt
    rw [AddVote_fresh N VBS o v hopen hlt hvok]
  · intro hge
    rw [AddVote_full N VBS o v hopen hge]
  · have hok := addVotesList_ok N VBS vs o hopen hfresh (by rw [hempty, hlenvs]; simp)
    rw [addVotesList_append]
    have hfullstate := hok.2.1
    rw [hempty] at hfullstate
    simp only [List.length_nil, zero_add, hlenvs] at hfullstate
    have hlast := AddVote_full N VBS (addVotesList N VBS o vs).2 vlast hok.2.2.1
      (by rw [hfullstate])
    show (addVotesList N VBS o vs).1
        ++ ((AddVote N VBS (addVotesList N VBS o vs).2 vlast).1
            :: (addVotesList N VBS (AddVote N VBS (addVotesList N VBS o vs).2 vlast).2 []).1)
      = List.replicate VBS none ++ [some AddVoteError.batchFull]
  
    rw [hok.1, hlast, hlenvs]
    rfl

/-- Witness for claim C9 with VoteBatchSize 2: three fresh votes on an
empty open batch; the first two adds succeed and the third fails with
BatchFull. -/
theorem claim9_witness :
    (State.mk true [] (ctZero 5) 0 (ctZero 5) 0 [] : State 5).dbTxOpen = true
      ∧ (State.mk true [] (ctZero 5) 0 (ctZero 5) 0 [] : State 5).tree.lookup [0] = none
      ∧ (State.mk true [] (ctZero 5) 0 (ctZero 5) 0 [] : State 5).votes = []
      ∧ ([Vote.mk [1] (Ciphertext.mk 1 0) [] 0, Vote.mk [2] (Ciphertext.mk 2 0) [] 0] : List (Vote 5)).length = 2
      ∧ (∀ u ∈ ([Vote.mk [1] (Ciphertext.mk 1 0) [] 0, Vote.mk [2] (Ciphertext.mk 2 0) [] 0] : List (Vote 5)),
          (State.mk true [] (ctZero 5) 0 (ctZero 5) 0 [] : State 5).tree.lookup u.nullifier = none)
      ∧ (((State.mk true [] (ctZero 5) 0 (ctZero 5) 0 [] : State 5).votes.length < 2 →
            (AddVote 5 2 (State.mk true [] (ctZero 5) 0 (ctZero 5) 0 [])
              (Vote.mk [0] (Ciphertext.mk 3 0) [] 0)).1 = none)
        ∧ (2 ≤ (State.mk true [] (ctZero 5) 0 (ctZero 5) 0 [] : State 5).votes.length →
            (AddVote 5 2 (State.mk true [] (ctZero 5) 0 (ctZero 5) 0 [])
              (Vote.mk [0] (Ciphertext.mk 3 0) [] 0)).1 = some AddVoteError.batchFull)
        ∧ (addVotesList 5 2 (State.mk true [] (ctZero 5) 0 (ctZero 5) 0 [])
            ([Vote.mk [1] (Ciphertext.mk 1 0) [] 0, Vote.mk [2] (Ciphertext.mk 2 0) [] 0]
              ++ [Vote.mk [3] (Ciphertext.mk 4 0) [] 0])).1
          = List.replicate 2 none ++ [some AddVoteError.batchFull]) :=
  ⟨by decide, by decide, by decide, by decide, by decide,
   claim9_batch_capacity 5 2 (State.mk true [] (ctZero 5) 0 (ctZero 5) 0 [])
     (Vote.mk [0] (Ciphertext.mk 3 0) [] 0) (Vote.mk [3] (Ciphertext.mk 4 0) [] 0)
     [Vote.mk [1] (Ciphertext.mk 1 0) [] 0, Vote.mk [2] (Ciphertext.mk 2 0) [] 0]
     (by decide) (by decide) (by decide) (by decide) (by decide)⟩

/-! ## Claim on BJJ.Neg -/

/-- Claim C6 evaluation at the failing input: BJJ.Neg ignores its argument
entirely, computing only from the receiver's prior value, so for a fresh
receiver g = New() = (0, 1) and argument a = B8 the call g.Neg(a) leaves g
at the identity; then Add(a, g) returns a itself, which is not the
identity, contradicting the claimed postcondition add(a, g) = identity
for every receiver. -/
theorem claim6_neg_ignores_argument :
    (∀ g a b : BJJPoint, bjjNeg g a = bjjNeg g b)
      ∧ bjjNeg bjjIdentity bjjB8 = bjjIdentity
      ∧ bjjAdd bjjB8 (bjjNeg bjjIdentity bjjB8) = bjjB8
      ∧ bjjB8 ≠ bjjIdentity := by
  have h1 : bjjNeg bjjIdentity bjjB8 = bjjIdentity := by
    simp [bjjNeg, bjjIdentity]
  refine ⟨fun g a b => rfl, h1, ?_, ?_⟩
  · rw [h1]
    simp [bjjAdd, bjjIdentity]
  · decide

/-! ## Claims on the discrete logarithm solvers -/

/-- Claim C2: for x up to discreteLogMaxMessage (with the group order
larger than the search spaces, as for the real curve order), every
possible outcome of the parallel brute-force search on scalarMultiplyBase x
is exactly x, some worker does find it, and Baby-Step-Giant-Step returns
exactly x as well, so the two strategies agree. -/
theorem claim2_round_trip (N x : ℕ) (hx : x ≤ discreteLogMaxMessage)
    (hN : 5 * discreteLogMaxMessage < N) :
    (∃ r, bfFound N (scalarBaseMult N x) r)
      ∧ (∀ r, bfFound N (scalarBaseMult N x) r → r = x)
      ∧ babyStepGiantStep N (scalarBaseMult N x) = some x := by
  have hMN : discreteLogMaxMessage < N := by omega
  have hNbig : msqrt * msqrt + msqrt < N := lt_of_le_of_lt msqrt_bound hN
  have hxb : x < msqrt * (msqrt + 1) := by
    have h1 := msqrt_sq_gt
    have h2 : msqrt * (msqrt + 1) = msqrt * msqrt + msqrt := by ring
    omega
  exact ⟨bf_returns N x hx, fun r hr => bf_sound N x r hMN hx hr,
    bsgs_correct N x hNbig hxb⟩

/-- Witness for claim C2 at x = 42 with group order 10^12. -/
theorem claim2_witness :
    42 ≤ discreteLogMaxMessage
      ∧ 5 * discreteLogMaxMessage < 1000000000000
      ∧ ((∃ r, bfFound 1000000000000 (scalarBaseMult 1000000000000 42) r)
        ∧ (∀ r, bfFound 1000000000000 (scalarBaseMult 1000000000000 42) r → r = 42)
        ∧ babyStepGiantStep 1000000000000 (scalarBaseMult 1000000000000 42) = some 42) :=
  ⟨by decide, by decide, claim2_round_trip 1000000000000 42 (by decide) (by decide)⟩

/-- Claim C5 counterexample: the target point (discreteLogMaxMessage+1)*G
has no discrete logarithm within [0, discreteLogMaxMessage], yet
babyStepGiantStep succeeds on it (returning discreteLogMaxMessage + 1,
which lies inside the BSGS search range [0, mSqrt*(mSqrt+1))), refuting
the claimed equivalence between the BSGS error and the absence of a
solution bounded by MaxMessage. -/
theorem claim5_counterexample :
    (¬ ∃ x, x ≤ discreteLogMaxMessage
        ∧ scalarBaseMult 1000000000000 x
          = scalarBaseMult 1000000000000 (discreteLogMaxMessage + 1))
      ∧ babyStepGiantStep 1000000000000
          (scalarBaseMult 1000000000000 (discreteLogMaxMessage + 1))
          ≠ none := by
  have hNbig : msqrt * msqrt + msqrt < 1000000000000 :=
    lt_of_le_of_lt msqrt_bound (by decide)
  have hMM : discreteLogMaxMessage + 1 < 1000000000000 := by
    rw [maxMessage_eq]
    norm_num
  constructor
  · rintro ⟨x, hx, hcast⟩
    have hxeq := natCast_inj_of_lt 1000000000000 x (discreteLogMaxMessage + 1)
      (by omega) hMM hcast
    omega
  · have hxb : discreteLogMaxMessage + 1 < msqrt * (msqrt + 1) := by
      have h1 := msqrt_sq_gt
      have h2 : msqrt * (msqrt + 1) = msqrt * msqrt + msqrt := by ring
      have h3 := msqrt_pos
      omega
    show babyStepGiantStep 1000000000000
        (((discreteLogMaxMessage + 1 : ℕ) : ZMod 1000000000000)) ≠ none
    rw [bsgs_correct 1000000000000 (discreteLogMaxMessage + 1) hNbig hxb]
    exact Option.noConfusion

/-- Claim C5 (amended): the brute-force coordinator reports the unsolved
error exactly when no x in [0, discreteLogMaxMessage] solves the discrete
logarithm; babyStepGiantStep returns its unsolved error exactly when no x
in the slightly larger range [0, mSqrt*(mSqrt+1)) solves it; and every
point with a solution bounded by discreteLogMaxMessage gets a scalar from
both strategies. -/
theorem claim5_unsolved_iff (N : ℕ) (hN : 5 * discreteLogMaxMessage < N) (m : ZMod N) :
    (bfUnsolved N m ↔ ¬ ∃ x, x ≤ discreteLogMaxMessage ∧ scalarBaseMult N x = m)
      ∧ (babyStepGiantStep N m = none
          ↔ ¬ ∃ x, x < msqrt * (msqrt + 1) ∧ scalarBaseMult N x = m)
      ∧ (∀ x, x ≤ discreteLogMaxMessage → scalarBaseMult N x = m →
          (∃ r, bfFound N m r) ∧ (babyStepGiantStep N m).isSome) := by
  have hMN : discreteLogMaxMessage < N := by omega
  have hNbig : msqrt * msqrt + msqrt < N := lt_of_le_of_lt msqrt_bound hN
  refine ⟨bf_unsolved_iff N hMN m, bsgs_none_iff N m hNbig, ?_⟩
  intro x hx hm
  have hxb : x < msqrt * (msqrt + 1) := by
    have h1 := msqrt_sq_gt
    have h2 : msqrt * (msqrt + 1) = msqrt * msqrt + msqrt := by ring
    omega
  constructor
  · rw [← hm]
    exact bf_returns N x hx
  · rw [← hm]
    show (babyStepGiantStep N ((x : ℕ) : ZMod N)).isSome = true
    rw [bsgs_correct N x hNbig hxb]
    rfl

/-- Witness for claim C5 (amended) at the zero point with group order
10^12. -/
theorem claim5_witness :
    5 * discreteLogMaxMessage < 1000000000000
      ∧ ((bfUnsolved 1000000000000 (0 : ZMod 1000000000000)
          ↔ ¬ ∃ x, x ≤ discreteLogMaxMessage ∧ scalarBaseMult 1000000000000 x = 0)
        ∧ (babyStepGiantStep 1000000000000 (0 : ZMod 1000000000000) = none
          ↔ ¬ ∃ x, x < msqrt * (msqrt + 1) ∧ scalarBaseMult 1000000000000 x = 0)
        ∧ (∀ x, x ≤ discreteLogMaxMessage → scalarBaseMult 1000000000000 x = 0 →
            (∃ r, bfFound 1000000000000 (0 : ZMod 1000000000000) r)
              ∧ (babyStepGiantStep 1000000000000 (0 : ZMod 1000000000000)).isSome)) :=
  ⟨by decide, claim5_unsolved_iff 1000000000000 (by decide) 0⟩

/-! ## Claims on Lagrange recombination -/

/-- Claim C1: for a fixed ciphertext (C1, C2) and correct Shamir shares
f(i) of the secret f(0) (f of degree below the threshold), with honest
partial decryptions f(i) * C1, recombination over any two threshold-sized
subsets of distinct participant ids produces the same masking point
M = C2 - f(0) * C1, and CombinePartialDecryptions returns the identical
result for both subsets: the outcome depends only on the secret and the
ciphertext. -/
theorem claim1_threshold_independence (N : ℕ) (hp : N.Prime) (c1 c2 : ZMod N)
    (poly : List (ZMod N)) (pd : List (ℤ × ZMod N)) (S1 S2 : List ℤ)
    (hnd1 : S1.Nodup) (hnd2 : S2.Nodup)
    (hb1 : ∀ j ∈ S1, 0 < j ∧ j < N) (hb2 : ∀ j ∈ S2, 0 < j ∧ j < N)
    (hl1 : poly.length ≤ S1.length) (hl2 : poly.length ≤ S2.length)
    (hpd : ∀ i ∈ S1 ++ S2,
      pd.lookup i = some (evalPoly N poly ((i : ℤ) : ZMod N) * c1)) :
    maskedPoint N c2 pd S1 = some (c2 - evalPoly N poly 0 * c1)
      ∧ maskedPoint N c2 pd S2 = some (c2 - evalPoly N poly 0 * c1)
      ∧ CombinePartialDecryptions N c2 pd S1 = CombinePartialDecryptions N c2 pd S2 := by
  have key : ∀ (S : List ℤ), S.Nodup → (∀ j ∈ S, 0 < j ∧ j < N) →
      poly.length ≤ S.length →
      (∀ i ∈ S, pd.lookup i = some (evalPoly N poly ((i : ℤ) : ZMod N) * c1)) →
      maskedPoint N c2 pd S = some (c2 - evalPoly N poly 0 * c1)
        ∧ CombinePartialDecryptions N c2 pd S
          = (match babyStepGiantStep N (c2 + -(evalPoly N poly 0 * c1)) with
            | some messageScalar => GoResult.ok messageScalar
            | none => GoResult.err "failed to compute discrete logarithm using Baby-Step Giant-Step algorithm") := by
    intro S hnd hb hlen hpdS
    have hco := computeLagrange_some N hp S hb
    have hsl := sumLoop_honest N hp c1 poly pd S hnd hb hlen hpdS
    constructor
    · rw [maskedPoint_unfold N c2 pd S _ _ hco hsl, sub_eq_add_neg]
    · exact combine_unfold N c2 pd S _ _ hco hsl
  have k1 := key S1 hnd1 hb1 hl1 (fun i hi => hpd i (List.mem_append.mpr (Or.inl hi)))
  have k2 := key S2 hnd2 hb2 hl2 (fun i hi => hpd i (List.mem_append.mpr (Or.inr hi)))
  exact ⟨k1.1, k2.1, by rw [k1.2, k2.2]⟩

/-- Witness for claim C1: order 11, secret polynomial f(x) = 3 + 4x
(secret 3), ciphertext components C1 = 5 and C2 = 7, honest shares for
ids 1, 2, 3, and the two threshold subsets [1, 2] and [2, 3]. -/
theorem claim1_witness :
    Nat.Prime 11
      ∧ ([1, 2] : List ℤ).Nodup
      ∧ ([2, 3] : List ℤ).Nodup
      ∧ (∀ j ∈ ([1, 2] : List ℤ), 0 < j ∧ j < 11)
      ∧ (∀ j ∈ ([2, 3] : List ℤ), 0 < j ∧ j < 11)
      ∧ ([(3 : ZMod 11), 4]).length ≤ ([1, 2] : List ℤ).length
      ∧ ([(3 : ZMod 11), 4]).length ≤ ([2, 3] : List ℤ).length
      ∧ (∀ i ∈ ([1, 2] ++ [2, 3] : List ℤ),
          ([((1 : ℤ), (2 : ZMod 11)), (2, 0), (3, 9)]).lookup i
            = some (evalPoly 11 [3, 4] ((i : ℤ) : ZMod 11) * 5))
      ∧ (maskedPoint 11 7 [((1 : ℤ), (2 : ZMod 11)), (2, 0), (3, 9)] [1, 2]
            = some (7 - evalPoly 11 [3, 4] 0 * 5)
        ∧ maskedPoint 11 7 [((1 : ℤ), (2 : ZMod 11)), (2, 0), (3, 9)] [2, 3]
            = some (7 - evalPoly 11 [3, 4] 0 * 5)
        ∧ CombinePartialDecryptions 11 7 [((1 : ℤ), (2 : ZMod 11)), (2, 0), (3, 9)] [1, 2]
            = CombinePartialDecryptions 11 7 [((1 : ℤ), (2 : ZMod 11)), (2, 0), (3, 9)] [2, 3]) :=
  ⟨by decide, by decide, by decide, by decide, by decide, by decide, by decide, by decide,
   claim1_threshold_independence 11 (by decide) 5 7 [3, 4]
     [((1 : ℤ), (2 : ZMod 11)), (2, 0), (3, 9)] [1, 2] [2, 3]
     (by decide) (by decide) (by decide) (by decide) (by decide) (by decide) (by decide)⟩

/-- Claim C3: for pairwise-distinct positive participant ids the
coefficient map is computed without failure, each coefficient c is the
Lagrange basis value at zero, characterised mod N by c < N and
c * denominator = numerator with the code's products (equivalently
c = prod(-j) * prod(i-j)^(-1)); consequently for the id set [1, 2, 3] the
returned coefficients satisfy the interpolation identities
l1 + l2 + l3 = 1 and l1*1 + l2*2 + l3*3 = 0 mod N. -/
theorem claim3_lagrange_coefficients (N : ℕ) (hp : N.Prime) (hN3 : 3 < N)
    (parts : List ℤ) (hnd : parts.Nodup) (hb : ∀ j ∈ parts, 0 < j ∧ j < N) :
    (computeLagrangeCoefficients N parts
        = some (parts.map (fun i => (i, (lagrangeCoeffAt N parts i).getD 0)))
      ∧ (∀ i ∈ parts, ∀ c, lagrangeCoeffAt N parts i = some c →
          c < N
            ∧ ((c : ℕ) : ZMod N) * ((lagrangeDen N parts i : ℕ) : ZMod N)
              = ((lagrangeNum N parts i : ℕ) : ZMod N)))
      ∧ (∀ coeffs, computeLagrangeCoefficients N [1, 2, 3] = some coeffs →
          ∀ l1 l2 l3 : ℕ,
            coeffs.lookup 1 = some l1 → coeffs.lookup 2 = some l2 →
            coeffs.lookup 3 = some l3 →
            ((l1 : ZMod N) + (l2 : ZMod N) + (l3 : ZMod N) = 1
              ∧ (l1 : ZMod N) * 1 + (l2 : ZMod N) * 2 + (l3 : ZMod N) * 3 = 0)) := by
  haveI : Fact N.Prime := ⟨hp⟩
  have hNz : (3 : ℤ) < (N : ℤ) := by exact_mod_cast hN3
  refine ⟨⟨computeLagrange_some N hp parts hb, ?_⟩, ?_⟩
  · intro i hi c hc
    obtain ⟨c', hc', hlt, hcast⟩ := lagrangeCoeffAt_spec N hp parts i hb (hb i hi)
    rw [hc'] at hc
    cases hc
    refine ⟨hlt, ?_⟩
    rw [hcast, lagrangeDen_cast N hp.pos, lagrangeNum_cast N hp.pos]
    have hdnz : ((lagrangeDen N parts i : ℕ) : ZMod N) ≠ 0 :=
      lagrangeDen_cast_ne_zero N hp parts i hb (hb i hi)
    rw [lagrangeDen_cast N hp.pos] at hdnz
    rw [mul_assoc, inv_mul_cancel₀ hdnz, mul_one]
  · intro coeffs hcoeffs l1 l2 l3 h1 h2 h3
    have hb123 : ∀ j ∈ ([1, 2, 3] : List ℤ), 0 < j ∧ j < N := by
      intro j hj
      simp only [List.mem_cons, List.not_mem_nil, or_false] at hj
      rcases hj with h | h | h <;> subst h <;> omega
    have hnd123 : ([1, 2, 3] : List ℤ).Nodup := by decide
    have hcs := computeLagrange_some N hp [1, 2, 3] hb123
    rw [hcoeffs] at hcs
    have hceq : coeffs
        = ([1, 2, 3] : List ℤ).map (fun i => (i, (lagrangeCoeffAt N [1, 2, 3] i).getD 0)) :=
      Option.some_inj.mp hcs
    have hl : ∀ (i : ℤ) (li : ℕ), i ∈ ([1, 2, 3] : List ℤ) →
        coeffs.lookup i = some li →
        ((li : ℕ) : ZMod N)
          = ((([1, 2, 3] : List ℤ).filter (fun j => decide (¬ i = j))).map
                (fun j => -((j : ℤ) : ZMod N))).prod
              * (((([1, 2, 3] : List ℤ).filter (fun j => decide (¬ i = j))).map
                (fun j => ((i : ℤ) : ZMod N) - ((j : ℤ) : ZMod N))).prod)⁻¹ := by
      intro i li hi hlook
      obtain ⟨c', hc', hlt, hcast⟩ := lagrangeCoeffAt_spec N hp [1, 2, 3] i hb123 (hb123 i hi)
      rw [hceq, lookup_map_pairs _ _ i hi] at hlook
      have : li = (lagrangeCoeffAt N [1, 2, 3] i).getD 0 := (Option.some_inj.mp hlook).symm
      rw [this, hc', Option.getD_some]
      exact hcast
    have he1 := hl 1 l1 (by decide) h1
    have he2 := hl 2 l2 (by decide) h2
    have he3 := hl 3 l3 (by decide) h3
    have hint1 := interpolation_core N hp [1, 2, 3] hnd123 hb123 [1] (by simp)
    have hint2 := interpolation_core N hp [1, 2, 3] hnd123 hb123 [0, 1] (by simp)
    simp only [List.map_cons, List.map_nil, List.sum_cons, List.sum_nil, add_zero] at hint1 hint2
    have hev1 : ∀ x : ZMod N, evalPoly N [1] x = 1 := by
      intro x
      simp [evalPoly]
    have hev2 : ∀ x : ZMod N, evalPoly N [0, 1] x = x := by
      intro x
      simp [evalPoly]
    rw [hev1, hev1, hev1, hev1] at hint1
    rw [hev2, hev2, hev2, hev2] at hint2
    rw [← he1, ← he2, ← he3] at hint1 hint2
    constructor
    · rw [← hint1]
      ring
    · rw [← hint2]
      push_cast
      ring

/-- Witness for claim C3 at order 11 and participant ids [1, 2, 3]. -/
theorem claim3_witness :
    Nat.Prime 11
      ∧ 3 < 11
      ∧ ([1, 2, 3] : List ℤ).Nodup
      ∧ (∀ j ∈ ([1, 2, 3] : List ℤ), 0 < j ∧ j < 11)
      ∧ ((computeLagrangeCoefficients 11 [1, 2, 3]
            = some (([1, 2, 3] : List ℤ).map
                (fun i => (i, (lagrangeCoeffAt 11 [1, 2, 3] i).getD 0)))
          ∧ (∀ i ∈ ([1, 2, 3] : List ℤ), ∀ c, lagrangeCoeffAt 11 [1, 2, 3] i = some c →
              c < 11
                ∧ ((c : ℕ) : ZMod 11) * ((lagrangeDen 11 [1, 2, 3] i : ℕ) : ZMod 11)
                  = ((lagrangeNum 11 [1, 2, 3] i : ℕ) : ZMod 11)))
        ∧ (∀ coeffs, computeLagrangeCoefficients 11 [1, 2, 3] = some coeffs →
            ∀ l1 l2 l3 : ℕ,
              coeffs.lookup 1 = some l1 → coeffs.lookup 2 = some l2 →
              coeffs.lookup 3 = some l3 →
              ((l1 : ZMod 11) + (l2 : ZMod 11) + (l3 : ZMod 11) = 1
                ∧ (l1 : ZMod 11) * 1 + (l2 : ZMod 11) * 2 + (l3 : ZMod 11) * 3 = 0))) :=
  ⟨by decide, by decide, by decide, by decide,
   claim3_lagrange_coefficients 11 (by decide) (by decide) [1, 2, 3] (by decide) (by decide)⟩

/-! ## Claims on failure modes of CombinePartialDecryptions -/

theorem combine_ne_fatal (N : ℕ) (c2 : ZMod N) (pd : List (ℤ × ZMod N)) (S : List ℤ)
    (coeffs : List (ℤ × ℕ)) (h : computeLagrangeCoefficients N S = some coeffs) :
    CombinePartialDecryptions N c2 pd S ≠ GoResult.fatal := by
  rw [CombinePartialDecryptions, h]
  show (match sumLoop N pd coeffs S 0 with
    | none => GoResult.panicked
    | some s =>
      match babyStepGiantStep N (c2 + -s) with
      | some messageScalar => GoResult.ok messageScalar
      | none => GoResult.err "failed to compute discrete logarithm using Baby-Step Giant-Step algorithm") ≠ GoResult.fatal
  cases hs : sumLoop N pd coeffs S 0 with
  | none => exact fun hc => GoResult.noConfusion hc
  | some s =>
    show (match babyStepGiantStep N (c2 + -s) with
      | some messageScalar => GoResult.ok messageScalar
      | none => GoResult.err "failed to compute discrete logarithm using Baby-Step Giant-Step algorithm") ≠ GoResult.fatal
    cases hbs : babyStepGiantStep N (c2 + -s) with
    | none => exact fun hc => GoResult.noConfusion hc
    | some ms => exact fun hc => GoResult.noConfusion hc

/-- Claim C8 counterexample: with the duplicated participant list [1, 1]
the value-based j distinct from i check skips every pair, so no Lagrange
denominator is zero: the coefficient computation succeeds (both map
entries carry coefficient 1) and CombinePartialDecryptions does not take
the no-modular-inverse branch, refuting the claim that coincident ids
force a NoModularInverse failure. -/
theorem claim8_counterexample :
    computeLagrangeCoefficients 11 [1, 1] = some [(1, 1), (1, 1)]
      ∧ CombinePartialDecryptions 11 0 [((1 : ℤ), (0 : ZMod 11))] [1, 1]
          ≠ GoResult.fatal :=
  ⟨by decide,
   combine_ne_fatal 11 0 [((1 : ℤ), (0 : ZMod 11))] [1, 1] [(1, 1), (1, 1)] (by decide)⟩

/-- Claim C8 (amended): for every participants list whose ids lie in
(0, N) with N prime, duplicates included, every Lagrange denominator
is a product of nonzero residues because the j distinct from i check
compares values and skips coincident ids; computeLagrangeCoefficients
therefore never takes its failure branch, and CombinePartialDecryptions
never reports the fatal no-modular-inverse outcome, which in the source is
a log.Fatalf process abort rather than a returned error value. -/
theorem claim8_no_modular_inverse (N : ℕ) (hp : N.Prime) (parts : List ℤ)
    (hb : ∀ j ∈ parts, 0 < j ∧ j < N) (c2 : ZMod N) (pd : List (ℤ × ZMod N)) :
    computeLagrangeCoefficients N parts ≠ none
      ∧ CombinePartialDecryptions N c2 pd parts ≠ GoResult.fatal := by
  have h := computeLagrange_some N hp parts hb
  refine ⟨?_, combine_ne_fatal N c2 pd parts _ h⟩
  rw [h]
  exact fun hc => Option.noConfusion hc

/-- Witness for claim C8 (amended) at order 11 with the duplicated
participant list [1, 1]. -/
theorem claim8_witness :
    Nat.Prime 11
      ∧ (∀ j ∈ ([1, 1] : List ℤ), 0 < j ∧ j < 11)
      ∧ (computeLagrangeCoefficients 11 [1, 1] ≠ none
        ∧ CombinePartialDecryptions 11 0 [((1 : ℤ), (0 : ZMod 11))] [1, 1]
            ≠ GoResult.fatal) :=
  ⟨by decide, by decide,
   claim8_no_modular_inverse 11 (by decide) [1, 1] (by decide) 0
     [((1 : ℤ), (0 : ZMod 11))]⟩

theorem sumLoop_none_of_missing (N : ℕ) (pd : List (ℤ × ZMod N))
    (coeffs : List (ℤ × ℕ)) :
    ∀ (l : List ℤ) (s0 : ZMod N), (∃ i ∈ l, pd.lookup i = none) →
      sumLoop N pd coeffs l s0 = none := by
  intro l
  induction l with
  | nil =>
    intro s0 h
    obtain ⟨i, hi, _⟩ := h
    exact absurd hi (List.not_mem_nil i)
  | cons i t ih =>
    intro s0 h
    cases hpi : pd.lookup i with
    | none => rw [sumLoop, hpi]
    | some p =>
      cases hci : coeffs.lookup i with
      | none => rw [sumLoop, hpi, hci]
      | some lam =>
        rw [sumLoop, hpi, hci]
        show sumLoop N pd coeffs t (s0 + ((lam : ℕ) : ZMod N) * p) = none
        apply ih
        obtain ⟨j, hj, hjn⟩ := h
        rcases List.mem_cons.mp hj with hji | hjt
        · subst hji
          rw [hpi] at hjn
          exact absurd hjn (Option.noConfusion)
        · exact ⟨j, hjt, hjn⟩

theorem sumLoop_isSome_of_present (N : ℕ) (pd : List (ℤ × ZMod N))
    (coeffs : List (ℤ × ℕ)) :
    ∀ (l : List ℤ) (s0 : ZMod N),
      (∀ i ∈ l, (pd.lookup i).isSome) → (∀ i ∈ l, (coeffs.lookup i).isSome) →
      ∃ s, sumLoop N pd coeffs l s0 = some s := by
  intro l
  induction l with
  | nil => intro s0 _ _; exact ⟨s0, rfl⟩
  | cons i t ih =>
    intro s0 hpd hco
    obtain ⟨p, hp⟩ := Option.isSome_iff_exists.mp (hpd i (List.mem_cons_self i t))
    obtain ⟨lam, hlam⟩ := Option.isSome_iff_exists.mp (hco i (List.mem_cons_self i t))
    rw [sumLoop, hp, hlam]
    show ∃ s, sumLoop N pd coeffs t (s0 + ((lam : ℕ) : ZMod N) * p) = some s
    exact ih _ (fun j hj => hpd j (List.mem_cons_of_mem i hj))
      (fun j hj => hco j (List.mem_cons_of_mem i hj))

/-- Claim C10: CombinePartialDecryptions silently requires that the
partial-decryptions map has an entry for every listed participant id:
whenever some listed id has no entry the accumulation loop dereferences a
nil point inside ScalarMult and the call panics (is not an error return),
and whenever every listed id has an entry that panic is unreachable. -/
theorem claim10_missing_share_panics (N : ℕ) (c2 : ZMod N) (pd : List (ℤ × ZMod N))
    (parts : List ℤ) (coeffs : List (ℤ × ℕ))
    (hc : computeLagrangeCoefficients N parts = some coeffs) :
    ((∃ i ∈ parts, pd.lookup i = none) →
        CombinePartialDecryptions N c2 pd parts = GoResult.panicked)
      ∧ ((∀ i ∈ parts, (pd.lookup i).isSome) →
        CombinePartialDecryptions N c2 pd parts ≠ GoResult.panicked) := by
  constructor
  · intro hmiss
    rw [CombinePartialDecryptions, hc]
    show (match sumLoop N pd coeffs parts 0 with
      | none => GoResult.panicked
      | some s =>
        match babyStepGiantStep N (c2 + -s) with
        | some messageScalar => GoResult.ok messageScalar
        | none => GoResult.err "failed to compute discrete logarithm using Baby-Step Giant-Step algorithm") = GoResult.panicked
    rw [sumLoop_none_of_missing N pd coeffs parts 0 hmiss]
  · intro hall
    have hcoeffs_all : ∀ i ∈ parts, (coeffs.lookup i).isSome := by
      obtain ⟨hys, _⟩ := mapM_pairs (lagrangeCoeffAt N parts) parts coeffs hc
      intro i hi
      rw [hys, lookup_map_pairs _ parts i hi]
      rfl
    obtain ⟨s, hs⟩ := sumLoop_isSome_of_present N pd coeffs parts 0 hall hcoeffs_all
    rw [CombinePartialDecryptions, hc]
    show (match sumLoop N pd coeffs parts 0 with
      | none => GoResult.panicked
      | some s =>
        match babyStepGiantStep N (c2 + -s) with
        | some messageScalar => GoResult.ok messageScalar
        | none => GoResult.err "failed to compute discrete logarithm using Baby-Step Giant-Step algorithm") ≠ GoResult.panicked
    rw [hs]
    show (match babyStepGiantStep N (c2 + -s) with
      | some messageScalar => GoResult.ok messageScalar
      | none => GoResult.err "failed to compute discrete logarithm using Baby-Step Giant-Step algorithm") ≠ GoResult.panicked
    cases hbs : babyStepGiantStep N (c2 + -s) with
    | none => exact fun hcon => GoResult.noConfusion hcon
    | some ms => exact fun hcon => GoResult.noConfusion hcon

/-- Witness for claim C10 at order 11 with participants [1, 2] and a map
carrying only id 1. -/
theorem claim10_witness :
    computeLagrangeCoefficients 11 [1, 2] = some [(1, 2), (2, 10)]
      ∧ (((∃ i ∈ ([1, 2] : List ℤ),
            ([((1 : ℤ), (0 : ZMod 11))]).lookup i = none) →
          CombinePartialDecryptions 11 0 [((1 : ℤ), (0 : ZMod 11))] [1, 2]
            = GoResult.panicked)
        ∧ ((∀ i ∈ ([1, 2] : List ℤ),
            (([((1 : ℤ), (0 : ZMod 11))]).lookup i).isSome) →
          CombinePartialDecryptions 11 0 [((1 : ℤ), (0 : ZMod 11))] [1, 2]
            ≠ GoResult.panicked)) :=
  ⟨by decide,
   claim10_missing_share_panics 11 0 [((1 : ℤ), (0 : ZMod 11))] [1, 2]
     [(1, 2), (2, 10)] (by decide)⟩
